import Mathlib

/-!
Verification of the Best-Fit bin-packing heuristics in `best-fit.cpp`.

The source file implements three heuristics for one-dimensional bin packing
with item sizes `objects[0..n)`, bin capacity `K` and minimum item size
`min_size` (the globals `n`, `K`, `min_size` are declared in the missing
header `bin-packing.h`; following the specification they are the item count,
the capacity and the smallest admissible item size of the problem instance,
so here they are explicit parameters, with `n = objects.length`).

* `best_fit` — array scan over the open bins, with retirement of almost-full
  bins by swapping with the last open slot (lines 24–80).
* `best_fit_heap` — bins kept in a 1-indexed binary max-heap; a pruned
  breadth-first search over the heap looks for the best bin (lines 87–148).
  The heap type `simple_heap` lives in the missing header `simple-heap.h`;
  it is modelled from the spec (§2, §6): an array-backed binary max-heap,
  1-indexed, children of node `j` at `2j` and `2j+1`, `push` inserts a new
  leaf and restores heap order, `reheap_down` re-heapifies downward.
* `best_fit_lookup` — histogram `bin_count[0..K]` of bins by remaining
  capacity (lines 156–192).

Machine integers are modelled by `Nat`; all quantities in the source stay
far below 2^32 on valid instances (counts ≤ n, loads ≤ K), and the only
subtraction (`cur_size - req_size`) is proved non-truncating where it is
used.  Out-of-bounds array writes (which are undefined behaviour in the
source) set an explicit `oob` flag in the model of `best_fit`, and the
histogram search of `best_fit_lookup` returns `none` when it would run past
the end of `bin_count`.
-/

namespace BinPacking

/-- A problem instance is valid when the minimum item size is positive,
at most `K`, and every item size lies between `min_size` and `K`
(spec §3: items are positive, at most `K`, and `minItemSize` is the
smallest admissible item size). -/
def Valid (K minsz : Nat) (objects : List Nat) : Prop :=
  1 ≤ minsz ∧ minsz ≤ K ∧ ∀ s ∈ objects, minsz ≤ s ∧ s ≤ K

instance (K minsz : Nat) (objects : List Nat) : Decidable (Valid K minsz objects) := by
  unfold Valid; infer_instance

/-! ### The array heuristic `best_fit` (lines 24–80) -/

/-- State of `best_fit`: the `bins` array (length `n`), the two counters,
the `positions` output written so far (one entry per processed item), and a
flag recording whether an out-of-bounds write occurred. -/
structure BFState where
  bins : List Nat
  numOpen : Nat
  numFull : Nat
  positions : List Nat
  oob : Bool
deriving Repr

/-- The inner scan of `best_fit` (lines 41–49): over `j < numOpen`,
`temp_cap = bins[j] + s`; on `temp_cap ≤ K ∧ temp_cap > best_cap` the pair
`(best_bin, best_cap)` is overwritten.  Initial value `(n, 0)`. -/
def bf_scan (n K s : Nat) (bins : List Nat) (numOpen : Nat) : Nat × Nat :=
  (List.range numOpen).foldl
    (fun best j =>
      let t := bins.getD j 0 + s
      if t ≤ K ∧ best.2 < t then (j, t) else best)
    (n, 0)

/-- One iteration of the main loop of `best_fit` (lines 36–72) on item `s`,
with `limit = K - min_size` (line 33). -/
def bf_step (n K limit : Nat) (st : BFState) (s : Nat) : BFState :=
  let best := bf_scan n K s st.bins st.numOpen
  if best.1 < n then
    -- lines 52–64: place the item, then retire the bin if it is almost full
    let bins1 := st.bins.set best.1 (st.bins.getD best.1 0 + s)
    if limit < bins1.getD best.1 0 then
      { bins := bins1.set best.1 (bins1.getD (st.numOpen - 1) 0)
        numOpen := st.numOpen - 1
        numFull := st.numFull + 1
        positions := st.positions ++ [best.1]
        oob := st.oob }
    else
      { st with bins := bins1, positions := st.positions ++ [best.1] }
  else
    -- lines 67–71: open a new bin (the write is out of bounds if numOpen ≥ n)
    { bins := st.bins.set st.numOpen s
      numOpen := st.numOpen + 1
      numFull := st.numFull
      positions := st.positions ++ [st.numOpen]
      oob := st.oob || decide (st.bins.length ≤ st.numOpen) }

/-- Initial state of `best_fit` (lines 26–31): `num_open_bins = 1`,
`num_full_bins = 0`, `bins` zeroed. -/
def bf_init (n : Nat) : BFState :=
  { bins := List.replicate n 0, numOpen := 1, numFull := 0,
    positions := [], oob := false }

/-- The state after `best_fit` has processed all items. -/
def bf_run (K minsz : Nat) (objects : List Nat) : BFState :=
  objects.foldl (bf_step objects.length K (K - minsz)) (bf_init objects.length)

/-- Return value of `best_fit` (line 78): `num_open_bins + num_full_bins`. -/
def best_fit (K minsz : Nat) (objects : List Nat) : Nat :=
  (bf_run K minsz objects).numOpen + (bf_run K minsz objects).numFull

/-! ### Item-tracking enrichment of `best_fit`

The source keeps only bin loads; a retired bin's load is overwritten
(line 62) and survives only in `num_full_bins`.  To reason about which
items share a physical bin, the same algorithm is restated with each bin
carried as the list of items placed into it; the load `bins[j]` of the
source is the sum of that list.  `bfx_sim_*` below proves that this run
projects exactly onto `bf_run`. -/

structure BFXState where
  opens : List (List Nat)
  fulls : List (List Nat)
deriving Repr

/-- `bf_step` with bins as item lists: the scan runs over the loads
(the list sums) exactly as in the source. -/
def bfx_step (n K limit : Nat) (st : BFXState) (s : Nat) : BFXState :=
  let best := bf_scan n K s (st.opens.map List.sum) st.opens.length
  if best.1 < n then
    let b := st.opens.getD best.1 [] ++ [s]
    let opens1 := st.opens.set best.1 b
    if limit < b.sum then
      { opens := (opens1.set best.1 (opens1.getD (st.opens.length - 1) [])).dropLast
        fulls := st.fulls ++ [b] }
    else { st with opens := opens1 }
  else { st with opens := st.opens ++ [[s]] }

/-- Initially one open bin with no items (`num_open_bins = 1`, load 0). -/
def bfx_init : BFXState := { opens := [[]], fulls := [] }

def bfx_run (K minsz : Nat) (objects : List Nat) : BFXState :=
  objects.foldl (bfx_step objects.length K (K - minsz)) bfx_init

/-- All bins of an enriched state, open and retired. -/
def BFXState.allBins (st : BFXState) : List (List Nat) := st.opens ++ st.fulls

/-! ### The lookup heuristic `best_fit_lookup` (lines 156–192) -/

/-- The inner search (lines 177–178): starting at `c`, advance while
`bin_count[cur_size] == 0`.  Returns `none` when the search would run past
the end of the histogram (an out-of-bounds read in the source). -/
def lk_find (hist : List Nat) (c : Nat) : Option Nat :=
  if h : c < hist.length then
    if hist.getD c 0 = 0 then lk_find hist (c + 1) else some c
  else none
termination_by hist.length - c

/-- State of `best_fit_lookup`: the histogram `bin_count[0..K]` and a flag
that records whether every search so far stayed in bounds. -/
structure LKState where
  hist : List Nat
  ok : Bool
deriving Repr

/-- One iteration of the loop of `best_fit_lookup` (lines 172–182) on item
`s`: `req_size = cur_size = s`; search upward for a nonzero entry; then
`bin_count[cur_size]--; bin_count[cur_size - req_size]++`. -/
def lk_step (st : LKState) (s : Nat) : LKState :=
  match lk_find st.hist s with
  | some cur =>
    let h1 := st.hist.set cur (st.hist.getD cur 0 - 1)
    { hist := h1.set (cur - s) (h1.getD (cur - s) 0 + 1), ok := st.ok }
  | none => { st with ok := false }

/-- Initial histogram (lines 159–164): `bin_count` zeroed, `bin_count[K] = n`. -/
def lk_init (n K : Nat) : LKState :=
  { hist := (List.replicate (K + 1) 0).set K n, ok := true }

def lk_run (K : Nat) (objects : List Nat) : LKState :=
  objects.foldl lk_step (lk_init objects.length K)

/-- Return value of `best_fit_lookup` (lines 187–188): the sum of
`bin_count[0..K)`. -/
def best_fit_lookup (K : Nat) (objects : List Nat) : Nat :=
  ((lk_run K objects).hist.take K).sum

/-! ### The heap heuristic `best_fit_heap` (lines 87–148)

`simple_heap` is modelled from the spec (§2, §6): a 1-indexed array-backed
binary max-heap of bin loads; `push` appends a new leaf and restores heap
order upward; `reheap_down` restores heap order downward from a node.
Element `j` (1-indexed) of heap `l` is `l.getD (j-1) 0`. -/

/-- 1-indexed read: `bins.elements[j]`. -/
def getE (l : List Nat) (j : Nat) : Nat := l.getD (j - 1) 0

/-- 1-indexed write. -/
def setE (l : List Nat) (j : Nat) (v : Nat) : List Nat := l.set (j - 1) v

/-- Exchange elements `i` and `j` (1-indexed). -/
def swapE (l : List Nat) (i j : Nat) : List Nat :=
  setE (setE l i (getE l j)) j (getE l i)

/-- Modelled from the spec: upward re-heapification from node `j`, as
performed by `simple_heap::push` after appending a leaf (`push(value)`
inserts a new leaf and restores heap order, spec §6). -/
def siftUp (l : List Nat) (j : Nat) : List Nat :=
  if h : 2 ≤ j ∧ j ≤ l.length then
    if getE l (j / 2) < getE l j then siftUp (swapE l j (j / 2)) (j / 2) else l
  else l
termination_by j
decreasing_by omega

/-- Modelled from the spec: `simple_heap::reheap_down(j)` — downward
re-heapification from node `j`, swapping with the larger child while the
heap order is violated (children of `j` at `2j`, `2j+1`, spec §3, §6). -/
def siftDown (l : List Nat) (j : Nat) : List Nat :=
  if h : 1 ≤ j ∧ 2 * j ≤ l.length then
    let c := if 2 * j + 1 ≤ l.length ∧ getE l (2 * j) < getE l (2 * j + 1) then
               2 * j + 1 else 2 * j
    if getE l j < getE l c then siftDown (swapE l j c) c else l
  else l
termination_by l.length - j
decreasing_by
  simp only [swapE, setE, List.length_set]
  split <;> omega

/-- Modelled from the spec: `simple_heap::push` — append a new leaf and
restore heap order upward. -/
def hpush (l : List Nat) (v : Nat) : List Nat :=
  siftUp (l ++ [v]) (l.length + 1)

/-- Queue entries of the breadth-first search are 1-based heap indices. -/
abbrev HIdx := { j : Nat // 1 ≤ j }

/-- The breadth-first search of `best_fit_heap` (lines 103–126): pop an
index `j`; if `bins.elements[j] + s ≤ K`, record it on strict improvement
of `best_cap` and push the children `2j`, `2j+1` that are `≤ num_bins`;
otherwise prune the subtree.  `B` is `num_bins`. -/
def hsearch (K s B : Nat) (l : List Nat) (q : List HIdx) (best : Nat × Nat) :
    Nat × Nat :=
  match q with
  | [] => best
  | j :: q' =>
    let t := getE l j.1 + s
    if t ≤ K then
      hsearch K s B l
        (q' ++ (if 2 * j.1 ≤ B then [⟨2 * j.1, by have := j.2; omega⟩] else [])
            ++ (if 2 * j.1 + 1 ≤ B then [⟨2 * j.1 + 1, by omega⟩] else []))
        (if best.2 < t then (j.1, t) else best)
    else hsearch K s B l q' best
termination_by (q.map (fun x => 4 ^ (B + 1 - x.1))).sum
decreasing_by
  · -- the node fits: children (when within range) replace it in the queue
    simp only [List.map_append, List.sum_append, List.map_cons, List.sum_cons]
    have h4 : (1:Nat) ≤ 4 ^ (B + 1 - j.1) := Nat.one_le_pow _ _ (by omega)
    split
    · rename_i h2
      have p1 : 4 ^ (B + 1 - 2 * j.1) * 4 ≤ 4 ^ (B + 1 - j.1) := by
        calc 4 ^ (B + 1 - 2 * j.1) * 4 = 4 ^ (B + 1 - 2 * j.1 + 1) := by
              rw [pow_succ]
          _ ≤ 4 ^ (B + 1 - j.1) := Nat.pow_le_pow_right (by omega) (by omega)
      split
      · rename_i h3
        have p2 : 4 ^ (B + 1 - (2 * j.1 + 1)) * 4 ≤ 4 ^ (B + 1 - j.1) := by
          calc 4 ^ (B + 1 - (2 * j.1 + 1)) * 4
              = 4 ^ (B + 1 - (2 * j.1 + 1) + 1) := by rw [pow_succ]
            _ ≤ 4 ^ (B + 1 - j.1) := Nat.pow_le_pow_right (by omega) (by omega)
        simp only [List.map_cons, List.map_nil, List.sum_cons, List.sum_nil]
        omega
      · simp only [List.map_cons, List.map_nil, List.sum_cons, List.sum_nil]
        omega
    · split
      · simp only [List.map_cons, List.map_nil, List.sum_cons, List.sum_nil]
        omega
      · simp only [List.map_nil, List.sum_nil]; omega
  · -- the node does not fit: it is popped and nothing is pushed
    simp only [List.map_cons, List.sum_cons]
    have : (1:Nat) ≤ 4 ^ (B + 1 - j.1) := Nat.one_le_pow _ _ (by omega)
    omega

/-- One iteration of the main loop of `best_fit_heap` (lines 95–142) on
item `s`; the heap is the list of bin loads (`num_bins = l.length`). -/
def bfh_step (n K : Nat) (l : List Nat) (s : Nat) : List Nat :=
  let best : Nat × Nat :=
    if l.length ≠ 0 ∧ getE l 1 + s ≤ K then
      hsearch K s l.length l [⟨1, le_refl 1⟩] (n, 0)
    else (n, 0)
  if best.1 < n then siftDown (setE l best.1 (getE l best.1 + s)) best.1
  else hpush l s

/-- The heap after `best_fit_heap` has processed all items. -/
def bfh_run (K : Nat) (objects : List Nat) : List Nat :=
  objects.foldl (bfh_step objects.length K) []

/-- Return value of `best_fit_heap` (line 147): `num_bins`. -/
def best_fit_heap (K : Nat) (objects : List Nat) : Nat :=
  (bfh_run K objects).length

/-- The max-heap property (spec §3): every node's load is at least both
children's loads; 1-indexed, children of `j` at `2j` and `2j+1` —
equivalently every non-root node is at most its parent `j / 2`. -/
def HeapProp (l : List Nat) : Prop :=
  ∀ j, 2 ≤ j → j ≤ l.length → getE l j ≤ getE l (j / 2)

instance (l : List Nat) : Decidable (HeapProp l) := by
  have d : Decidable (∀ j ∈ List.range (l.length + 1), 2 ≤ j → getE l j ≤ getE l (j / 2)) :=
    inferInstance
  refine @decidable_of_iff _ _ ?_ d
  constructor
  · intro h j h2 hl
    exact h j (List.mem_range.mpr (by omega)) h2
  · intro h j hmem h2
    exact h j h2 (by have := List.mem_range.mp hmem; omega)

/-! ### Generic list lemmas used throughout -/

theorem getD_set_self (l : List Nat) (i : Nat) (v : Nat) (h : i < l.length) :
    (l.set i v).getD i 0 = v := by
  simp [List.getD_eq_getElem?_getD, List.getElem?_set_self', h]

theorem getD_set_ne (l : List Nat) (i j : Nat) (v : Nat) (h : i ≠ j) :
    (l.set i v).getD j 0 = l.getD j 0 := by
  simp [List.getD_eq_getElem?_getD, List.getElem?_set_ne h]

theorem sum_set_getD (l : List Nat) (i v : Nat) (h : i < l.length) :
    (l.set i v).sum + l.getD i 0 = l.sum + v := by
  induction l generalizing i with
  | nil => simp at h
  | cons a l ih =>
    cases i with
    | zero => simp [List.getD_cons_zero]; omega
    | succ i =>
      simp only [List.set_cons_succ, List.sum_cons, List.getD_cons_succ]
      have := ih i (by simpa using h)
      omega

theorem take_sum_eq_range_sum (l : List Nat) (m : Nat) :
    (l.take m).sum = ∑ c ∈ Finset.range m, l.getD c 0 := by
  induction m with
  | zero => simp
  | succ m ih =>
    rw [Finset.sum_range_succ, ← ih, List.take_succ]
    simp only [List.sum_append]
    rcases Nat.lt_or_ge m l.length with h | h
    · simp [List.getElem?_eq_getElem h, List.getD_eq_getElem?_getD]
    · rw [List.getElem?_eq_none h]
      simp only [Option.toList_none, List.sum_nil]
      rw [List.getD_eq_getElem?_getD, List.getElem?_eq_none h]
      simp

theorem set_replicate_zero (n i : Nat) :
    (List.replicate n (0:Nat)).set i 0 = List.replicate n 0 := by
  induction n generalizing i with
  | zero => simp
  | succ n ih =>
    cases i with
    | zero => simp [List.replicate_succ]
    | succ i => simp [List.replicate_succ, ih]

/-! ### Lemmas about the inner search of `best_fit_lookup` -/

theorem lk_find_spec (hist : List Nat) (c c' : Nat) (h : lk_find hist c = some c') :
    c ≤ c' ∧ c' < hist.length ∧ hist.getD c' 0 ≠ 0 ∧
      ∀ x, c ≤ x → x < c' → hist.getD x 0 = 0 := by
  induction c using lk_find.induct hist with
  | case1 c hc h0 ih =>
    rw [lk_find, dif_pos hc, if_pos h0] at h
    obtain ⟨h1, h2, h3, h4⟩ := ih h
    refine ⟨by omega, h2, h3, ?_⟩
    intro x hx1 hx2
    rcases Nat.eq_or_lt_of_le hx1 with rfl | hlt
    · exact h0
    · exact h4 x hlt hx2
  | case2 c hc h0 =>
    rw [lk_find, dif_pos hc, if_neg h0] at h
    simp only [Option.some.injEq] at h
    subst h
    exact ⟨le_refl _, hc, h0, by omega⟩
  | case3 c hc =>
    rw [lk_find, dif_neg hc] at h
    simp at h

theorem lk_find_eq (hist : List Nat) (c c' : Nat)
    (hle : c ≤ c') (hlt : c' < hist.length) (hnz : hist.getD c' 0 ≠ 0)
    (hzero : ∀ x, c ≤ x → x < c' → hist.getD x 0 = 0) :
    lk_find hist c = some c' := by
  induction c using lk_find.induct hist with
  | case1 c hc h0 ih =>
    rw [lk_find, dif_pos hc, if_pos h0]
    have hne : c ≠ c' := by rintro rfl; exact hnz h0
    exact ih (by omega) (fun x hx1 hx2 => hzero x (by omega) hx2)
  | case2 c hc h0 =>
    rw [lk_find, dif_pos hc, if_neg h0]
    rcases Nat.eq_or_lt_of_le hle with rfl | hlt'
    · rfl
    · exact absurd (hzero c (le_refl c) hlt') h0
  | case3 c hc =>
    omega

/-! ### Invariants of the `best_fit_lookup` run -/

theorem lk_find_none (hist : List Nat) (c : Nat) (h : lk_find hist c = none) :
    ∀ x, c ≤ x → x < hist.length → hist.getD x 0 = 0 := by
  induction c using lk_find.induct hist with
  | case1 c hc h0 ih =>
    rw [lk_find, dif_pos hc, if_pos h0] at h
    intro x hx1 hx2
    rcases Nat.eq_or_lt_of_le hx1 with rfl | hlt
    · exact h0
    · exact ih h x hlt hx2
  | case2 c hc h0 =>
    rw [lk_find, dif_pos hc, if_neg h0] at h
    simp at h
  | case3 c hc =>
    intro x hx1 hx2
    omega

/-- Invariant of the lookup histogram after `i` of `n` items: every search
so far stayed in bounds, the histogram has entries `0..K`, sums to `n`, and
entry `K` is still at least `n - i`. -/
def LInv (K n i : Nat) (st : LKState) : Prop :=
  st.ok = true ∧ st.hist.length = K + 1 ∧ st.hist.sum = n ∧ n - i ≤ st.hist.getD K 0

theorem linv_init (K n : Nat) : LInv K n 0 (lk_init n K) := by
  refine ⟨rfl, by simp [lk_init], ?_, ?_⟩
  · show ((List.replicate (K + 1) 0).set K n).sum = n
    have h1 := sum_set_getD (List.replicate (K + 1) 0) K n (by simp)
    have hz : (List.replicate (K + 1) (0 : Nat)).getD K 0 = 0 := by
      simp [List.getD_eq_getElem?_getD]
    have hs : (List.replicate (K + 1) (0 : Nat)).sum = 0 := by simp
    omega
  · show n - 0 ≤ ((List.replicate (K + 1) 0).set K n).getD K 0
    rw [getD_set_self _ _ _ (by simp)]
    omega

theorem linv_step (K n i s : Nat) (st : LKState) (hinv : LInv K n i st)
    (hs1 : 1 ≤ s) (hsK : s ≤ K) (hi : i < n) :
    LInv K n (i + 1) (lk_step st s) ∧
      ∃ cur, lk_find st.hist s = some cur ∧ s ≤ cur ∧ cur ≤ K := by
  obtain ⟨hok, hlen, hsum, hK⟩ := hinv
  have hKnz : st.hist.getD K 0 ≠ 0 := by omega
  have hfind : ∃ cur, lk_find st.hist s = some cur ∧ s ≤ cur ∧ cur ≤ K := by
    cases hf : lk_find st.hist s with
    | none => exact absurd (lk_find_none _ _ hf K (by omega) (by omega)) hKnz
    | some cur =>
      obtain ⟨h1, h2, h3, h4⟩ := lk_find_spec _ _ _ hf
      refine ⟨cur, rfl, h1, ?_⟩
      by_contra hcur
      exact hKnz (h4 K (by omega) (by omega))
  obtain ⟨cur, hf, hscur, hcurK⟩ := hfind
  obtain ⟨_, hcurlt, hcurnz, _⟩ := lk_find_spec _ _ _ hf
  refine ⟨?_, cur, hf, hscur, hcurK⟩
  have hstep : lk_step st s =
      { hist := (st.hist.set cur (st.hist.getD cur 0 - 1)).set (cur - s)
          ((st.hist.set cur (st.hist.getD cur 0 - 1)).getD (cur - s) 0 + 1)
        ok := st.ok } := by
    simp only [lk_step, hf]
  rw [hstep]
  have hcs : cur - s < st.hist.length := by omega
  have hne : cur ≠ cur - s := by omega
  have hlen1 : (st.hist.set cur (st.hist.getD cur 0 - 1)).length = st.hist.length := by
    simp
  refine ⟨hok, by simp [hlen], ?_, ?_⟩
  · show ((st.hist.set cur (st.hist.getD cur 0 - 1)).set (cur - s)
      ((st.hist.set cur (st.hist.getD cur 0 - 1)).getD (cur - s) 0 + 1)).sum = n
    have e1 := sum_set_getD st.hist cur (st.hist.getD cur 0 - 1) hcurlt
    have e2 := sum_set_getD (st.hist.set cur (st.hist.getD cur 0 - 1)) (cur - s)
      ((st.hist.set cur (st.hist.getD cur 0 - 1)).getD (cur - s) 0 + 1) (by omega)
    omega
  · show n - (i + 1) ≤ ((st.hist.set cur (st.hist.getD cur 0 - 1)).set (cur - s)
      ((st.hist.set cur (st.hist.getD cur 0 - 1)).getD (cur - s) 0 + 1)).getD K 0
    rcases Nat.eq_or_lt_of_le hcurK with rfl | hcurlt'
    · have g1 : (st.hist.set cur (st.hist.getD cur 0 - 1)).getD cur 0 =
          st.hist.getD cur 0 - 1 := getD_set_self _ _ _ hcurlt
      have g2 := getD_set_ne (st.hist.set cur (st.hist.getD cur 0 - 1)) (cur - s) cur
        ((st.hist.set cur (st.hist.getD cur 0 - 1)).getD (cur - s) 0 + 1) (by omega)
      omega
    · have g1 := getD_set_ne st.hist cur K (st.hist.getD cur 0 - 1) (by omega)
      have g2 := getD_set_ne (st.hist.set cur (st.hist.getD cur 0 - 1)) (cur - s) K
        ((st.hist.set cur (st.hist.getD cur 0 - 1)).getD (cur - s) 0 + 1) (by omega)
      omega

theorem foldl_take_succ {α β : Type} (f : β → α → β) (l : List α) (i : Nat)
    (hi : i < l.length) (init : β) (d : α) :
    (l.take (i + 1)).foldl f init = f ((l.take i).foldl f init) (l.getD i d) := by
  rw [List.take_succ, List.foldl_append, List.getElem?_eq_getElem hi]
  simp [List.getD_eq_getElem?_getD, List.getElem?_eq_getElem hi]

theorem getD_mem {α : Type} {l : List α} {i : Nat} (hi : i < l.length) (d : α) :
    l.getD i d ∈ l := by
  rw [List.getD_eq_getElem?_getD, List.getElem?_eq_getElem hi]
  exact List.getElem_mem hi

theorem linv_run (K minsz : Nat) (objects : List Nat) (hv : Valid K minsz objects)
    (i : Nat) (hi : i ≤ objects.length) :
    LInv K objects.length i
      ((objects.take i).foldl lk_step (lk_init objects.length K)) := by
  induction i with
  | zero => simpa using linv_init K objects.length
  | succ i ih =>
    have hlt : i < objects.length := by omega
    rw [foldl_take_succ lk_step objects i hlt _ 0]
    have hmem : objects.getD i 0 ∈ objects := getD_mem hlt 0
    obtain ⟨h1, h2⟩ := hv.2.2 _ hmem
    exact (linv_step _ _ _ _ _ (ih (by omega)) (by have := hv.1; omega) h2 hlt).1

/-- C9 — In `best_fit_lookup`, for every valid instance, the sum of
`bin_count[c]` over all `c ∈ [0, K]` equals `n` after initialization and
after each item is processed. -/
theorem C9_histogram_sum (K minsz : Nat) (objects : List Nat)
    (hv : Valid K minsz objects) (i : Nat) (hi : i ≤ objects.length) :
    ((objects.take i).foldl lk_step (lk_init objects.length K)).hist.sum =
      objects.length :=
  (linv_run K minsz objects hv i hi).2.2.1

/-- C9 witness: the invariant at a concrete instance. -/
theorem C9_witness :
    Valid 10 1 [4, 8, 1, 4, 2, 1] ∧ (3 : Nat) ≤ 6 ∧
      (([4, 8, 1, 4, 2, 1].take 3).foldl lk_step (lk_init 6 10)).hist.sum = 6 :=
  ⟨by decide, by decide, C9_histogram_sum 10 1 [4, 8, 1, 4, 2, 1] (by decide) 3 (by decide)⟩

/-- C10 — In `best_fit_lookup`, on every valid instance the inner upward
search terminates at some `cur_size ≤ K` at every step (so all histogram
reads and writes stay within `[0, K]`), `req_size ≤ cur_size` (the
subtraction `cur_size - req_size` cannot underflow), and the whole run
stays in bounds. -/
theorem C10_search_in_bounds (K minsz : Nat) (objects : List Nat)
    (hv : Valid K minsz objects) :
    (lk_run K objects).ok = true ∧
      ∀ i < objects.length, ∃ cur,
        lk_find ((objects.take i).foldl lk_step (lk_init objects.length K)).hist
            (objects.getD i 0) = some cur ∧
          objects.getD i 0 ≤ cur ∧ cur ≤ K := by
  constructor
  · have h := linv_run K minsz objects hv objects.length (le_refl _)
    rw [lk_run]
    rw [List.take_length] at h  -- take n l = l
    exact h.1
  · intro i hi
    have hmem : objects.getD i 0 ∈ objects := getD_mem hi 0
    obtain ⟨h1, h2⟩ := hv.2.2 _ hmem
    exact (linv_step _ _ _ _ _ (linv_run K minsz objects hv i (by omega))
      (by have := hv.1; omega) h2 hi).2

/-- C10 witness at a concrete valid instance. -/
theorem C10_witness :
    Valid 10 1 [4, 8, 1, 4, 2, 1] ∧
      ((lk_run 10 [4, 8, 1, 4, 2, 1]).ok = true ∧
        ∀ i < ([4, 8, 1, 4, 2, 1] : List Nat).length, ∃ cur,
          lk_find (([4, 8, 1, 4, 2, 1].take i).foldl lk_step (lk_init 6 10)).hist
              ([4, 8, 1, 4, 2, 1].getD i 0) = some cur ∧
            [4, 8, 1, 4, 2, 1].getD i 0 ≤ cur ∧ cur ≤ 10) :=
  ⟨by decide, C10_search_in_bounds 10 1 [4, 8, 1, 4, 2, 1] (by decide)⟩

/-! ### C5: the empty instance -/

/-- C5 counterexample — the claim says `best_fit` returns 0 bins for the
empty instance; in fact `num_open_bins` starts at 1 and is returned
unchanged, so `best_fit` reports 1 bin. -/
theorem C5_counterexample : ¬ (best_fit 5 3 [] = 0) := by decide

/-- C5 (amended) — for the empty instance no heuristic fails;
`best_fit_heap` and `best_fit_lookup` return 0 bins, while `best_fit`
returns 1 (its open-bin counter starts at 1). -/
theorem C5_empty_instance (K minsz : Nat) :
    best_fit K minsz [] = 1 ∧ best_fit_heap K [] = 0 ∧
      best_fit_lookup K [] = 0 := by
  refine ⟨rfl, rfl, ?_⟩
  show (((List.replicate (K + 1) 0).set K 0).take K).sum = 0
  rw [set_replicate_zero]
  rw [List.take_replicate]
  simp

/-! ### The scan of `best_fit` computes the best fitting open bin -/

theorem bf_scan_succ (n K s : Nat) (bins : List Nat) (m : Nat) :
    bf_scan n K s bins (m + 1) =
      (if bins.getD m 0 + s ≤ K ∧ (bf_scan n K s bins m).2 < bins.getD m 0 + s
        then (m, bins.getD m 0 + s) else bf_scan n K s bins m) := by
  rw [bf_scan, bf_scan, List.range_succ, List.foldl_append]
  rfl

/-- A bin `j` accepts item `s` in the scan when the resulting load is at
most `K` and beats `best_cap = 0` (the source compares `temp_cap > best_cap`). -/
def scanFits (K s : Nat) (bins : List Nat) (j : Nat) : Prop :=
  bins.getD j 0 + s ≤ K ∧ 0 < bins.getD j 0 + s

/-- The scan either reports no fit (`best_bin = n` untouched) or returns
the lowest-indexed open bin maximizing the resulting load among those ≤ K. -/
theorem bf_scan_spec (n K s : Nat) (bins : List Nat) (numOpen : Nat) :
    (bf_scan n K s bins numOpen = (n, 0) ∧
      ∀ j, j < numOpen → ¬ scanFits K s bins j) ∨
    ((bf_scan n K s bins numOpen).1 < numOpen ∧
      (bf_scan n K s bins numOpen).2 =
        bins.getD (bf_scan n K s bins numOpen).1 0 + s ∧
      (bf_scan n K s bins numOpen).2 ≤ K ∧
      0 < (bf_scan n K s bins numOpen).2 ∧
      (∀ j, j < numOpen → bins.getD j 0 + s ≤ K →
        bins.getD j 0 + s ≤ (bf_scan n K s bins numOpen).2) ∧
      (∀ j, j < (bf_scan n K s bins numOpen).1 → bins.getD j 0 + s ≤ K →
        bins.getD j 0 + s < (bf_scan n K s bins numOpen).2)) := by
  induction numOpen with
  | zero =>
    left
    constructor
    · rfl
    · intro j hj; omega
  | succ m ih =>
    rw [bf_scan_succ]
    rcases ih with ⟨heq, hnone⟩ | ⟨h1, h2, h3, h4, h5, h6⟩
    · rw [heq]
      have hsnd : ((n, 0) : Nat × Nat).2 = 0 := rfl
      split
      · rename_i hfit
        rw [hsnd] at hfit
        right
        refine ⟨by omega, rfl, hfit.1, hfit.2, ?_, ?_⟩
        · intro j hj hle
          rcases Nat.lt_or_ge j m with hjm | hjm
          · have := hnone j hjm
            rw [scanFits] at this
            simp only [not_and, not_lt] at this
            have := this hle
            omega
          · have : j = m := by omega
            subst this; omega
        · intro j hj hle
          have := hnone j (by omega)
          rw [scanFits] at this
          simp only [not_and, not_lt] at this
          have := this hle
          omega
      · rename_i hfit
        rw [hsnd] at hfit
        left
        refine ⟨rfl, ?_⟩
        intro j hj
        rcases Nat.lt_or_ge j m with hjm | hjm
        · exact hnone j hjm
        · have : j = m := by omega
          subst this
          rw [scanFits]
          exact hfit
    · split
      · rename_i hfit
        right
        refine ⟨by omega, rfl, hfit.1, by omega, ?_, ?_⟩
        · intro j hj hle
          rcases Nat.lt_or_ge j m with hjm | hjm
          · have := h5 j hjm hle; omega
          · have : j = m := by omega
            subst this; omega
        · intro j hj hle
          have := h5 j (by omega) hle
          omega
      · rename_i hfit
        simp only [not_and, not_lt] at hfit
        right
        refine ⟨by omega, h2, h3, h4, ?_, h6⟩
        intro j hj hle
        rcases Nat.lt_or_ge j m with hjm | hjm
        · exact h5 j hjm hle
        · have : j = m := by omega
          subst this
          exact hfit hle

/-! ### Retirement surgery: overwriting a slot with the last open bin and
shrinking the open range removes exactly that slot's bin -/

theorem set_getD_self {α : Type} (l : List α) (i : Nat) (d : α) (hi : i < l.length) :
    l.set i (l.getD i d) = l := by
  induction l generalizing i with
  | nil => simp at hi
  | cons a l ih =>
    cases i with
    | zero => simp
    | succ i =>
      rw [List.getD_cons_succ, List.set_cons_succ, ih i (by simpa using hi)]

theorem set_last_dropLast_perm {α : Type} (l : List α) (i : Nat) (d : α)
    (hi : i < l.length) :
    ((l.set i (l.getD (l.length - 1) d)).dropLast).Perm (l.eraseIdx i) := by
  have hne : l ≠ [] := by
    intro h; subst h; simp at hi
  obtain ⟨m, a, rfl⟩ : ∃ m a, l = m ++ [a] :=
    ⟨l.dropLast, l.getLast hne, (List.dropLast_append_getLast hne).symm⟩
  have hlast : (m ++ [a]).getD ((m ++ [a]).length - 1) d = a := by
    rw [List.getD_eq_getElem?_getD,
      List.getElem?_eq_getElem (by simp)]
    simp only [List.length_append, List.length_cons, List.length_nil]
    rw [List.getElem_concat_length m a _ (by simp) (by simp)]
    rfl
  rw [hlast]
  rcases Nat.lt_or_ge i m.length with him | him
  · rw [List.set_append, if_pos him, List.dropLast_concat,
      List.eraseIdx_append_of_lt_length him]
    rw [List.set_eq_take_cons_drop a him, List.eraseIdx_eq_take_drop_succ]
    rw [List.append_assoc]
    exact List.Perm.append_left _ (List.perm_append_singleton a _).symm
  · have hieq : i = m.length := by
      simp only [List.length_append, List.length_cons, List.length_nil] at hi
      omega
    subst hieq
    rw [List.set_append, if_neg (by omega), Nat.sub_self]
    simp only [List.set_cons_zero, List.dropLast_concat]
    rw [List.eraseIdx_eq_take_drop_succ, List.take_left]
    simp

theorem getD_map_sum (l : List (List Nat)) (j : Nat) (hj : j < l.length) :
    (l.map List.sum).getD j 0 = (l.getD j []).sum := by
  rw [List.getD_eq_getElem?_getD, List.getD_eq_getElem?_getD,
    List.getElem?_eq_getElem (by simpa using hj),
    List.getElem?_eq_getElem hj]
  simp

/-- Case analysis for one enriched step: either the item is placed into the
lowest-indexed open bin maximizing the resulting load (with or without
retirement), or no open bin accepts it and a new bin is opened. -/
theorem bfx_step_cases (n K limit : Nat) (st : BFXState) (s : Nat)
    (hlen : st.opens.length ≤ n) :
    (∃ bb, bb < st.opens.length ∧
      (st.opens.getD bb []).sum + s ≤ K ∧
      0 < (st.opens.getD bb []).sum + s ∧
      (∀ j, j < st.opens.length → (st.opens.getD j []).sum + s ≤ K →
        (st.opens.getD j []).sum + s ≤ (st.opens.getD bb []).sum + s) ∧
      (((st.opens.getD bb []).sum + s ≤ limit ∧
        bfx_step n K limit st s =
          { opens := st.opens.set bb (st.opens.getD bb [] ++ [s]),
            fulls := st.fulls }) ∨
       (limit < (st.opens.getD bb []).sum + s ∧
        (bfx_step n K limit st s).fulls =
          st.fulls ++ [st.opens.getD bb [] ++ [s]] ∧
        ((bfx_step n K limit st s).opens).Perm
          ((st.opens.set bb (st.opens.getD bb [] ++ [s])).eraseIdx bb)))) ∨
    ((∀ j, j < st.opens.length → ¬ scanFits K s (st.opens.map List.sum) j) ∧
      bfx_step n K limit st s = { opens := st.opens ++ [[s]], fulls := st.fulls }) := by
  rcases bf_scan_spec n K s (st.opens.map List.sum) st.opens.length with
    ⟨heq, hnone⟩ | ⟨h1, h2, h3, h4, h5, _⟩
  · right
    refine ⟨hnone, ?_⟩
    rw [bfx_step, heq]
    simp
  · left
    set sc := bf_scan n K s (st.opens.map List.sum) st.opens.length with hsc
    have hmap : (st.opens.map List.sum).getD sc.1 0 = (st.opens.getD sc.1 []).sum :=
      getD_map_sum _ _ h1
    have hsum : ((st.opens.getD sc.1 []) ++ [s]).sum = (st.opens.getD sc.1 []).sum + s := by
      simp
    refine ⟨sc.1, h1, by rw [← hmap]; omega, by rw [← hmap]; omega, ?_, ?_⟩
    · intro j hj hle
      have := h5 j hj (by rwa [getD_map_sum _ _ hj])
      rw [getD_map_sum _ _ hj] at this
      rw [← hmap]
      omega
    · have hb : sc.1 < n := by omega
      by_cases hret : limit < (st.opens.getD sc.1 []).sum + s
      · right
        refine ⟨hret, ?_, ?_⟩
        · rw [bfx_step, ← hsc, if_pos hb]
          simp only [hsum]
          rw [if_pos hret]
        · rw [bfx_step, ← hsc, if_pos hb]
          simp only [hsum]
          rw [if_pos hret]
          simp only
          have hlen1 : (st.opens.set sc.1 (st.opens.getD sc.1 [] ++ [s])).length =
              st.opens.length := by simp
          have := set_last_dropLast_perm
            (st.opens.set sc.1 (st.opens.getD sc.1 [] ++ [s])) sc.1 []
            (by rw [hlen1]; exact h1)
          rwa [hlen1] at this
      · left
        refine ⟨by omega, ?_⟩
        rw [bfx_step, ← hsc, if_pos hb]
        simp only [hsum]
        rw [if_neg hret]

/-! ### Simulation: the literal `best_fit` state projects the enrichment -/

theorem getD_take {α : Type} (l : List α) (m j : Nat) (d : α) (hj : j < m) :
    (l.take m).getD j d = l.getD j d := by
  induction l generalizing m j with
  | nil => simp
  | cons a l ih =>
    cases m with
    | zero => omega
    | succ m =>
      cases j with
      | zero => simp
      | succ j =>
        simp only [List.take_succ_cons, List.getD_cons_succ]
        exact ih m j (by omega)

theorem take_set {α : Type} (l : List α) (i m : Nat) (v : α) (him : i < m) :
    (l.set i v).take m = (l.take m).set i v := by
  induction l generalizing i m with
  | nil => simp
  | cons a l ih =>
    cases m with
    | zero => omega
    | succ m =>
      cases i with
      | zero => simp
      | succ i =>
        simp only [List.set_cons_succ, List.take_succ_cons]
        rw [ih i m (by omega)]

theorem take_set_ge {α : Type} (l : List α) (i m : Nat) (v : α) (h : m ≤ i) :
    (l.set i v).take m = l.take m := by
  induction l generalizing i m with
  | nil => simp
  | cons a l ih =>
    cases i with
    | zero =>
      cases m with
      | zero => simp
      | succ m => omega
    | succ i =>
      cases m with
      | zero => simp
      | succ m =>
        simp only [List.set_cons_succ, List.take_succ_cons]
        rw [ih i m (by omega)]

theorem take_set_take {α : Type} (X : List α) (m k i : Nat) (v : α) (hk : k ≤ m) :
    ((X.take m).set i v).take k = (X.set i v).take k := by
  rcases Nat.lt_or_ge i k with h | h
  · rw [take_set _ _ _ _ h, take_set _ _ _ _ h, List.take_take, Nat.min_eq_left hk]
  · rw [take_set_ge _ _ _ _ h, take_set_ge _ _ _ _ h, List.take_take, Nat.min_eq_left hk]

theorem set_take_succ {α : Type} (l : List α) (i : Nat) (v : α) (hi : i < l.length) :
    (l.set i v).take (i + 1) = l.take i ++ [v] := by
  induction l generalizing i with
  | nil => simp at hi
  | cons a l ih =>
    cases i with
    | zero => simp
    | succ i =>
      simp only [List.set_cons_succ, List.take_succ_cons, List.cons_append]
      rw [ih i (by simpa using hi)]

theorem bf_scan_congr (n K s : Nat) (bins1 bins2 : List Nat) (numOpen : Nat)
    (h : ∀ j, j < numOpen → bins1.getD j 0 = bins2.getD j 0) :
    bf_scan n K s bins1 numOpen = bf_scan n K s bins2 numOpen := by
  induction numOpen with
  | zero => rfl
  | succ m ih =>
    rw [bf_scan_succ, bf_scan_succ, ih (fun j hj => h j (by omega)), h m (by omega)]

/-- The literal `best_fit` state determined by an enriched state: the open
prefix of `bins` holds the open bins' loads, counters match, and no write
has gone out of bounds. -/
def SimR (n : Nat) (st : BFState) (sx : BFXState) : Prop :=
  st.bins.take st.numOpen = sx.opens.map List.sum ∧
  st.numOpen = sx.opens.length ∧
  st.numFull = sx.fulls.length ∧
  st.bins.length = n ∧
  st.oob = false

theorem sim_init (n : Nat) (hn : 1 ≤ n) : SimR n (bf_init n) bfx_init := by
  refine ⟨?_, rfl, rfl, by simp [bf_init], rfl⟩
  show (List.replicate n (0:Nat)).take 1 = [List.sum []]
  cases n with
  | zero => omega
  | succ n => simp [List.replicate_succ]

theorem sim_step (n K limit : Nat) (st : BFState) (sx : BFXState) (s : Nat)
    (hsim : SimR n st sx) (hlen : sx.opens.length ≤ n)
    (hroom : sx.opens.length < n ∨
      (bf_scan n K s (sx.opens.map List.sum) sx.opens.length).1 < sx.opens.length) :
    SimR n (bf_step n K limit st s) (bfx_step n K limit sx s) := by
  obtain ⟨hbins, hopen, hfull, hblen, hoob⟩ := hsim
  have hgdall : ∀ j, j < sx.opens.length → st.bins.getD j 0 =
      (sx.opens.map List.sum).getD j 0 := by
    intro j hj
    rw [← getD_take st.bins st.numOpen j 0 (by omega), hbins]
  have hscan : bf_scan n K s st.bins st.numOpen =
      bf_scan n K s (sx.opens.map List.sum) sx.opens.length := by
    rw [hopen]
    exact bf_scan_congr n K s st.bins (sx.opens.map List.sum) sx.opens.length
      (fun j hj => hgdall j hj)
  rcases bf_scan_spec n K s (sx.opens.map List.sum) sx.opens.length with
    ⟨heq, hnone⟩ | ⟨h1, h2, h3, h4, h5, h6⟩
  · -- no open bin fits: both sides open a new bin
    have hov : sx.opens.length < n := by
      rcases hroom with h | h
      · exact h
      · rw [heq] at h
        simp only at h
        omega
    have hlit : bf_step n K limit st s =
        { bins := st.bins.set st.numOpen s
          numOpen := st.numOpen + 1
          numFull := st.numFull
          positions := st.positions ++ [st.numOpen]
          oob := st.oob || decide (st.bins.length ≤ st.numOpen) } := by
      rw [bf_step, hscan, heq]
      simp
    have hx : bfx_step n K limit sx s =
        { opens := sx.opens ++ [[s]], fulls := sx.fulls } := by
      rw [bfx_step, heq]
      simp
    rw [hlit, hx]
    refine ⟨?_, by simp [hopen], by simpa using hfull, by simpa using hblen, ?_⟩
    · show (st.bins.set st.numOpen s).take (st.numOpen + 1) =
        (sx.opens ++ [[s]]).map List.sum
      rw [set_take_succ st.bins st.numOpen s (by omega), hbins]
      simp
    · show (st.oob || decide (st.bins.length ≤ st.numOpen)) = false
      rw [hoob, hblen, hopen]
      simp only [Bool.false_or, decide_eq_false_iff_not, not_le]
      omega
  · -- some open bin fits at index q.1 < numOpen
    have hb : (bf_scan n K s (sx.opens.map List.sum) sx.opens.length).1 < n := by
      omega
    set q := bf_scan n K s (sx.opens.map List.sum) sx.opens.length with hq
    have hq1len : q.1 < st.bins.length := by omega
    have hgd : st.bins.getD q.1 0 = (sx.opens.map List.sum).getD q.1 0 :=
      hgdall q.1 h1
    have hmap : (sx.opens.map List.sum).getD q.1 0 = (sx.opens.getD q.1 []).sum :=
      getD_map_sum _ _ h1
    have hbsum : ((sx.opens.getD q.1 []) ++ [s]).sum = (sx.opens.getD q.1 []).sum + s := by
      simp
    have hset1 : (st.bins.set q.1 (st.bins.getD q.1 0 + s)).getD q.1 0 =
        st.bins.getD q.1 0 + s := getD_set_self _ _ _ hq1len
    -- the open prefix after placing into bin q.1
    have htake1 : (st.bins.set q.1 (st.bins.getD q.1 0 + s)).take st.numOpen =
        (sx.opens.set q.1 (sx.opens.getD q.1 [] ++ [s])).map List.sum := by
      rw [take_set _ _ _ _ (by omega), hbins, List.map_set, hbsum, hgd, hmap]
    by_cases hret : limit < st.bins.getD q.1 0 + s
    · -- the bin is retired
      have hretx : limit < ((sx.opens.getD q.1 []) ++ [s]).sum := by
        rw [hbsum, ← hmap, ← hgd]; exact hret
      have hlit : bf_step n K limit st s =
          { bins := (st.bins.set q.1 (st.bins.getD q.1 0 + s)).set q.1
              ((st.bins.set q.1 (st.bins.getD q.1 0 + s)).getD (st.numOpen - 1) 0)
            numOpen := st.numOpen - 1
            numFull := st.numFull + 1
            positions := st.positions ++ [q.1]
            oob := st.oob } := by
        rw [bf_step, hscan, if_pos hb]
        simp only [hset1]
        rw [if_pos hret]
      have hx : bfx_step n K limit sx s =
          { opens := ((sx.opens.set q.1 (sx.opens.getD q.1 [] ++ [s])).set q.1
              ((sx.opens.set q.1 (sx.opens.getD q.1 [] ++ [s])).getD
                (sx.opens.length - 1) [])).dropLast
            fulls := sx.fulls ++ [sx.opens.getD q.1 [] ++ [s]] } := by
        rw [bfx_step, ← hq, if_pos hb]
        simp only [hbsum]
        rw [if_pos (by rw [hbsum] at hretx; exact hretx)]
      rw [hlit, hx]
      have hlen1x : (sx.opens.set q.1 (sx.opens.getD q.1 [] ++ [s])).length =
          sx.opens.length := by simp
      have hgdlast : (st.bins.set q.1 (st.bins.getD q.1 0 + s)).getD (st.numOpen - 1) 0 =
          ((sx.opens.set q.1 (sx.opens.getD q.1 [] ++ [s])).getD
            (sx.opens.length - 1) []).sum := by
        rw [← getD_take (st.bins.set q.1 (st.bins.getD q.1 0 + s)) st.numOpen
            (st.numOpen - 1) 0 (by omega)]
        rw [htake1, hopen]
        exact getD_map_sum _ _ (by rw [hlen1x]; omega)
      refine ⟨?_, by simp [hopen, hlen1x], by simp [hfull], by simpa using hblen,
        by simpa using hoob⟩
      show ((st.bins.set q.1 (st.bins.getD q.1 0 + s)).set q.1
          ((st.bins.set q.1 (st.bins.getD q.1 0 + s)).getD (st.numOpen - 1) 0)).take
            (st.numOpen - 1) = _
      rw [List.map_dropLast, List.map_set, hgdlast]
      set X := st.bins.set q.1 (st.bins.getD q.1 0 + s) with hX
      set M := (sx.opens.set q.1 (sx.opens.getD q.1 [] ++ [s])).map List.sum with hM
      set v := ((sx.opens.set q.1 (sx.opens.getD q.1 [] ++ [s])).getD
        (sx.opens.length - 1) []).sum with hv
      have hXM : X.take st.numOpen = M := htake1
      have hMlen : M.length = sx.opens.length := by
        rw [hM]; simp
      have hdrop : (M.set q.1 v).dropLast = (M.set q.1 v).take (sx.opens.length - 1) := by
        rw [List.dropLast_eq_take]
        simp [hMlen]
      rw [hdrop, ← hXM,
        take_set_take X st.numOpen (sx.opens.length - 1) q.1 v (by omega), hopen]
    · -- the bin stays open
      have hretx : ¬ limit < ((sx.opens.getD q.1 []) ++ [s]).sum := by
        rw [hbsum, ← hmap, ← hgd]; exact hret
      have hlit : bf_step n K limit st s =
          { st with
              bins := st.bins.set q.1 (st.bins.getD q.1 0 + s),
              positions := st.positions ++ [q.1] } := by
        rw [bf_step, hscan, if_pos hb]
        simp only [hset1]
        rw [if_neg hret]
      have hx : bfx_step n K limit sx s =
          { sx with opens := sx.opens.set q.1 (sx.opens.getD q.1 [] ++ [s]) } := by
        rw [bfx_step, ← hq, if_pos hb]
        simp only [hbsum]
        rw [if_neg (by rw [hbsum] at hretx; exact hretx)]
      rw [hlit, hx]
      exact ⟨htake1, by simp [hopen], by simpa using hfull, by simpa using hblen,
        by simpa using hoob⟩

/-! ### Run invariant of the enriched `best_fit` -/

theorem getD_map (f : List Nat → Nat) (l : List (List Nat)) (j : Nat)
    (hj : j < l.length) : (l.map f).getD j 0 = f (l.getD j []) := by
  rw [List.getD_eq_getElem?_getD, List.getD_eq_getElem?_getD,
    List.getElem?_eq_getElem (by simpa using hj), List.getElem?_eq_getElem hj]
  simp

theorem sum_map_set (f : List Nat → Nat) (l : List (List Nat)) (i : Nat)
    (v : List Nat) (hi : i < l.length) :
    ((l.set i v).map f).sum + f (l.getD i []) = (l.map f).sum + f v := by
  rw [List.map_set]
  have := sum_set_getD (l.map f) i (f v) (by simpa using hi)
  rw [getD_map f l i hi] at this
  exact this

theorem sum_map_eraseIdx (f : List Nat → Nat) (l : List (List Nat)) (i : Nat)
    (hi : i < l.length) :
    ((l.eraseIdx i).map f).sum + f (l.getD i []) = (l.map f).sum := by
  induction l generalizing i with
  | nil => simp at hi
  | cons a l ih =>
    cases i with
    | zero => simp [Nat.add_comm]
    | succ i =>
      simp only [List.eraseIdx_cons_succ, List.map_cons, List.sum_cons,
        List.getD_cons_succ]
      have := ih i (by simpa using hi)
      omega

theorem eraseIdx_set {α : Type} (l : List α) (i : Nat) (v : α) :
    (l.set i v).eraseIdx i = l.eraseIdx i := by
  induction l generalizing i with
  | nil => simp
  | cons a l ih =>
    cases i with
    | zero => simp
    | succ i => simp [ih]

/-- Invariant of the enriched `best_fit` run after processing prefix `pre`
of a valid instance: loads stay within `K`, retired bins exceed
`K - min_size`, every bin of the prefix run is nonempty and holds at least
`min_size`, the bins partition the processed items, the bin count never
exceeds `max 1 |pre|`, and any open bin above the retirement limit holds a
single item. -/
def AInv (K minsz : Nat) (pre : List Nat) (sx : BFXState) : Prop :=
  (∀ b ∈ sx.opens, b.sum ≤ K) ∧
  (∀ b ∈ sx.fulls, K - minsz < b.sum ∧ b.sum ≤ K) ∧
  (∀ b ∈ sx.allBins, b ≠ [] → minsz ≤ b.sum) ∧
  ((sx.allBins.map List.length).sum = pre.length) ∧
  ((sx.allBins.map List.sum).sum = pre.sum) ∧
  (1 ≤ pre.length → ∀ b ∈ sx.allBins, b ≠ []) ∧
  (sx.opens.length + sx.fulls.length ≤ max 1 pre.length) ∧
  (∀ b ∈ sx.opens, K - minsz < b.sum → ∃ x, b = [x]) ∧
  (pre = [] → sx = bfx_init)

theorem ainv_init (K minsz : Nat) : AInv K minsz [] bfx_init := by
  refine ⟨?_, ?_, ?_, ?_, ?_, ?_, ?_, ?_, ?_⟩ <;>
    simp [bfx_init, BFXState.allBins]

theorem ainv_step (n K minsz : Nat) (pre : List Nat) (sx : BFXState) (s : Nat)
    (hinv : AInv K minsz pre sx) (hm1 : 1 ≤ minsz) (hms : minsz ≤ s) (hsK : s ≤ K)
    (hlen : sx.opens.length ≤ n) :
    AInv K minsz (pre ++ [s]) (bfx_step n K (K - minsz) sx s) := by
  obtain ⟨a1, a2, a3, a4, a5, a6, a7, a9, a8⟩ := hinv
  have hs1 : 1 ≤ s := by omega
  rcases bfx_step_cases n K (K - minsz) sx s hlen with
    ⟨bb, hbb, hfitK, hfit0, hmax, hcase⟩ | ⟨hnone, hstep⟩
  · have hbmem : sx.opens.getD bb [] ∈ sx.opens := getD_mem hbb []
    have hbsum : (sx.opens.getD bb [] ++ [s]).sum = (sx.opens.getD bb []).sum + s := by
      simp
    rcases hcase with ⟨hle, hstep⟩ | ⟨hgt, hfulls, hperm⟩
    · -- placed, bin stays open
      rw [hstep]
      have memset : ∀ b' ∈ sx.opens.set bb (sx.opens.getD bb [] ++ [s]),
          b' ∈ sx.opens ∨ b' = sx.opens.getD bb [] ++ [s] :=
        fun b' h => List.mem_or_eq_of_mem_set h
      have hsum_len := sum_map_set List.length sx.opens bb
        (sx.opens.getD bb [] ++ [s]) hbb
      have hsum_sum := sum_map_set List.sum sx.opens bb
        (sx.opens.getD bb [] ++ [s]) hbb
      refine ⟨?_, a2, ?_, ?_, ?_, ?_, ?_, ?_, by simp⟩
      · intro b' hb'
        rcases memset b' hb' with h | h
        · exact a1 b' h
        · rw [h, hbsum]; omega
      · intro b' hb' hne
        simp only [BFXState.allBins, List.mem_append] at hb'
        rcases hb' with h | h
        · rcases memset b' h with h' | h'
          · exact a3 b' (by simp [BFXState.allBins, h']) hne
          · rw [h', hbsum]; omega
        · exact a3 b' (by simp [BFXState.allBins, h]) hne
      · show ((((sx.opens.set bb (sx.opens.getD bb [] ++ [s])) ++ sx.fulls).map
          List.length).sum = (pre ++ [s]).length)
        simp only [BFXState.allBins, List.map_append, List.sum_append] at a4 ⊢
        simp only [List.length_append, List.length_cons, List.length_nil]
        have : (sx.opens.getD bb [] ++ [s]).length = (sx.opens.getD bb []).length + 1 := by
          simp
        omega
      · show ((((sx.opens.set bb (sx.opens.getD bb [] ++ [s])) ++ sx.fulls).map
          List.sum).sum = (pre ++ [s]).sum)
        simp only [BFXState.allBins, List.map_append, List.sum_append] at a5 ⊢
        simp only [List.sum_append, List.sum_cons, List.sum_nil]
        omega
      · intro _ b' hb'
        simp only [BFXState.allBins, List.mem_append] at hb'
        by_cases hpre : pre = []
        · have := a8 hpre
          subst this
          simp only [bfx_init] at hb' hbb ⊢
          have hbb0 : bb = 0 := by
            simp at hbb; omega
          subst hbb0
          rcases hb' with h | h
          · simp at h
            subst h
            simp
          · simp at h
        · have hq : 1 ≤ pre.length := by
            cases pre with
            | nil => simp at hpre
            | cons a l => simp
          rcases hb' with h | h
          · rcases memset b' h with h' | h'
            · exact a6 hq b' (by simp [BFXState.allBins, h'])
            · rw [h']; simp
          · exact a6 hq b' (by simp [BFXState.allBins, h])
      · simp only [List.length_set]
        have := a7
        simp only [List.length_append] at this ⊢
        omega
      · intro b' hb' hgt'
        rcases memset b' hb' with h | h
        · exact a9 b' h hgt'
        · exfalso
          rw [h, hbsum] at hgt'
          omega
    · -- placed, bin retired
      rw [eraseIdx_set] at hperm
      set st' := bfx_step n K (K - minsz) sx s with hst'
      have hmem_opens : ∀ b' ∈ st'.opens, b' ∈ sx.opens :=
        fun b' h => List.mem_of_mem_eraseIdx (hperm.mem_iff.mp h)
      have hlensum : ((st'.opens.map List.length).sum : Nat) =
          ((sx.opens.eraseIdx bb).map List.length).sum :=
        (hperm.map List.length).sum_eq
      have hsumsum : ((st'.opens.map List.sum).sum : Nat) =
          ((sx.opens.eraseIdx bb).map List.sum).sum :=
        (hperm.map List.sum).sum_eq
      have hlen_erase := sum_map_eraseIdx List.length sx.opens bb hbb
      have hsum_erase := sum_map_eraseIdx List.sum sx.opens bb hbb
      have hlen' : st'.opens.length = sx.opens.length - 1 := by
        rw [hperm.length_eq, List.length_eraseIdx, if_pos hbb]
      refine ⟨?_, ?_, ?_, ?_, ?_, ?_, ?_, ?_, by simp⟩
      · exact fun b' h => a1 b' (hmem_opens b' h)
      · intro b' hb'
        rw [hfulls] at hb'
        rcases List.mem_append.mp hb' with h | h
        · exact a2 b' h
        · simp only [List.mem_cons, List.not_mem_nil, or_false] at h
          rw [h, hbsum]
          omega
      · intro b' hb' hne
        simp only [BFXState.allBins, List.mem_append] at hb'
        rcases hb' with h | h
        · exact a3 b' (by simp [BFXState.allBins, hmem_opens b' h]) hne
        · rw [hfulls] at h
          rcases List.mem_append.mp h with h' | h'
          · exact a3 b' (by simp [BFXState.allBins, h']) hne
          · simp only [List.mem_cons, List.not_mem_nil, or_false] at h'
            rw [h', hbsum]
            omega
      · show ((st'.allBins.map List.length).sum = (pre ++ [s]).length)
        simp only [BFXState.allBins, List.map_append, List.sum_append] at a4 ⊢
        rw [hlensum, hfulls]
        simp only [List.map_append, List.sum_append, List.map_cons, List.sum_cons,
          List.map_nil, List.sum_nil, List.length_append]
        simp only [List.length_append, List.length_cons, List.length_nil] at a4 ⊢
        have hgl : (sx.opens.getD bb [] ++ [s]).length =
            (sx.opens.getD bb []).length + 1 := by simp
        omega
      · show ((st'.allBins.map List.sum).sum = (pre ++ [s]).sum)
        simp only [BFXState.allBins, List.map_append, List.sum_append] at a5 ⊢
        rw [hsumsum, hfulls]
        simp only [List.map_append, List.sum_append, List.map_cons, List.sum_cons,
          List.map_nil, List.sum_nil]
        omega
      · intro _ b' hb'
        simp only [BFXState.allBins, List.mem_append] at hb'
        rcases hb' with h | h
        · by_cases hpre : pre = []
          · rw [a8 hpre] at hperm hbb
            have hbb0 : bb = 0 := by
              simp only [bfx_init, List.length_cons, List.length_nil] at hbb
              omega
            subst hbb0
            have hz : (bfx_init.opens.eraseIdx 0) = ([] : List (List Nat)) := rfl
            rw [hz] at hperm
            have h2 := hperm.eq_nil
            rw [h2] at h
            simp at h
          · have hq : 1 ≤ pre.length := by
              cases pre with
              | nil => simp at hpre
              | cons a l => simp
            exact a6 hq b' (by simp [BFXState.allBins, hmem_opens b' h])
        · rw [hfulls] at h
          rcases List.mem_append.mp h with h' | h'
          · by_cases hpre : pre = []
            · have := a8 hpre
              subst this
              simp [bfx_init] at h'
            · have hq : 1 ≤ pre.length := by
                cases pre with
                | nil => simp at hpre
                | cons a l => simp
              exact a6 hq b' (by simp [BFXState.allBins, h'])
          · simp only [List.mem_cons, List.not_mem_nil, or_false] at h'
            rw [h']
            simp
      · rw [hlen', hfulls]
        simp only [List.length_append, List.length_cons, List.length_nil] at a7 ⊢
        omega
      · intro b' hb' hgt'
        exact a9 b' (hmem_opens b' hb') hgt'
  · -- no open bin accepts the item: a new bin is opened
    have hpre : pre ≠ [] := by
      intro hp
      have := a8 hp
      subst this
      have h0 : scanFits K s ((bfx_init).opens.map List.sum) 0 := by
        show scanFits K s ([[]].map List.sum) 0
        rw [scanFits]
        simp
        omega
      exact hnone 0 (by simp [bfx_init]) h0
    have hq : 1 ≤ pre.length := by
      cases pre with
      | nil => simp at hpre
      | cons a l => simp
    rw [hstep]
    refine ⟨?_, a2, ?_, ?_, ?_, ?_, ?_, ?_, by simp⟩
    · intro b' hb'
      rcases List.mem_append.mp hb' with h | h
      · exact a1 b' h
      · simp only [List.mem_cons, List.not_mem_nil, or_false] at h
        rw [h]
        simpa using hsK
    · intro b' hb' hne
      simp only [BFXState.allBins, List.mem_append] at hb'
      rcases hb' with (h | h) | h
      · exact a3 b' (by simp [BFXState.allBins, h]) hne
      · simp only [List.mem_cons, List.not_mem_nil, or_false] at h
        rw [h]
        simpa using hms
      · exact a3 b' (by simp [BFXState.allBins, h]) hne
    · show (((sx.opens ++ [[s]] ++ sx.fulls).map List.length).sum = (pre ++ [s]).length)
      simp only [List.map_append, List.sum_append, List.map_cons, List.map_nil,
        List.sum_cons, List.sum_nil, List.length_cons, List.length_nil,
        List.length_append]
      simp only [BFXState.allBins, List.map_append, List.sum_append] at a4
      omega
    · show (((sx.opens ++ [[s]] ++ sx.fulls).map List.sum).sum = (pre ++ [s]).sum)
      simp only [List.map_append, List.sum_append, List.map_cons, List.map_nil,
        List.sum_cons, List.sum_nil]
      simp only [BFXState.allBins, List.map_append, List.sum_append] at a5
      omega
    · intro _ b' hb'
      simp only [BFXState.allBins, List.mem_append] at hb'
      rcases hb' with (h | h) | h
      · exact a6 hq b' (by simp [BFXState.allBins, h])
      · simp only [List.mem_cons, List.not_mem_nil, or_false] at h
        rw [h]
        simp
      · exact a6 hq b' (by simp [BFXState.allBins, h])
    · simp only [List.length_append, List.length_cons, List.length_nil]
      omega
    · intro b' hb' hgt'
      rcases List.mem_append.mp hb' with h | h
      · exact a9 b' h hgt'
      · simp only [List.mem_cons, List.not_mem_nil, or_false] at h
        exact ⟨s, h⟩

theorem take_succ_getD {α : Type} (l : List α) (i : Nat) (d : α) (hi : i < l.length) :
    l.take (i + 1) = l.take i ++ [l.getD i d] := by
  rw [List.take_succ, List.getD_eq_getElem?_getD, List.getElem?_eq_getElem hi]
  rfl

/-- Joint run invariant of `best_fit`: the enriched invariant holds and the
literal state is its projection, after any prefix of a valid instance. -/
theorem bf_run_inv (K minsz : Nat) (objects : List Nat) (hv : Valid K minsz objects)
    (hn : 1 ≤ objects.length) (i : Nat) (hi : i ≤ objects.length) :
    AInv K minsz (objects.take i)
      ((objects.take i).foldl (bfx_step objects.length K (K - minsz)) bfx_init) ∧
    SimR objects.length
      ((objects.take i).foldl (bf_step objects.length K (K - minsz))
        (bf_init objects.length))
      ((objects.take i).foldl (bfx_step objects.length K (K - minsz)) bfx_init) := by
  induction i with
  | zero =>
    exact ⟨by simpa using ainv_init K minsz, by simpa using sim_init objects.length hn⟩
  | succ i ih =>
    obtain ⟨iha, ihs⟩ := ih (by omega)
    have hilt : i < objects.length := by omega
    have hmem : objects.getD i 0 ∈ objects := getD_mem hilt 0
    obtain ⟨hms, hsK⟩ := hv.2.2 _ hmem
    have hs1 : 1 ≤ objects.getD i 0 := by have := hv.1; omega
    have hlenx : ((objects.take i).foldl (bfx_step objects.length K (K - minsz))
        bfx_init).opens.length ≤ objects.length := by
      have h7 := iha.2.2.2.2.2.2.1
      have hti : (objects.take i).length = i := by
        rw [List.length_take]; omega
      rw [hti] at h7
      omega
    rw [foldl_take_succ (bfx_step objects.length K (K - minsz)) objects i hilt _ 0,
      foldl_take_succ (bf_step objects.length K (K - minsz)) objects i hilt _ 0]
    constructor
    · have := ainv_step objects.length K minsz (objects.take i) _ (objects.getD i 0)
        iha hv.1 hms hsK hlenx
      rwa [← take_succ_getD objects i 0 hilt] at this
    · refine sim_step objects.length K (K - minsz) _ _ (objects.getD i 0) ihs hlenx ?_
      rcases Nat.eq_or_lt_of_le (Nat.one_le_iff_ne_zero.mpr (by omega) :
          1 ≤ i + 1) with hi0 | hi1
      · -- first step: the initial empty bin always accepts a valid item
        have hieq : i = 0 := by omega
        subst hieq
        right
        simp only [List.take_zero, List.foldl_nil]
        rcases bf_scan_spec objects.length K (objects.getD 0 0)
            (bfx_init.opens.map List.sum) bfx_init.opens.length with ⟨heq, hnone⟩ | ⟨h1, _⟩
        · exfalso
          refine hnone 0 (by simp [bfx_init]) ?_
          rw [scanFits]
          constructor
          · show (bfx_init.opens.map List.sum).getD 0 0 + objects.getD 0 0 ≤ K
            simpa [bfx_init] using hsK
          · show 0 < (bfx_init.opens.map List.sum).getD 0 0 + objects.getD 0 0
            have hz : ((bfx_init.opens.map List.sum).getD 0 0) = 0 := rfl
            rw [hz]
            omega
        · exact h1
      · -- later steps: strictly fewer than n bins exist so far
        left
        have h7 := iha.2.2.2.2.2.2.1
        have hti : (objects.take i).length = i := by
          rw [List.length_take]; omega
        rw [hti] at h7
        omega

/-- On a nonempty valid instance the reported bin count of `best_fit`
equals the total number of bins of the enriched run. -/
theorem best_fit_eq_bfx (K minsz : Nat) (objects : List Nat)
    (hv : Valid K minsz objects) (hn : 1 ≤ objects.length) :
    best_fit K minsz objects =
      (bfx_run K minsz objects).opens.length + (bfx_run K minsz objects).fulls.length := by
  have h := (bf_run_inv K minsz objects hv hn objects.length (le_refl _)).2
  rw [List.take_length] at h
  obtain ⟨_, h2, h3, _, _⟩ := h
  rw [best_fit, bf_run, bfx_run]
  omega

/-- The enriched invariant at the end of a nonempty valid run. -/
theorem bfx_run_ainv (K minsz : Nat) (objects : List Nat)
    (hv : Valid K minsz objects) (hn : 1 ≤ objects.length) :
    AInv K minsz objects (bfx_run K minsz objects) := by
  have h := (bf_run_inv K minsz objects hv hn objects.length (le_refl _)).1
  rwa [List.take_length] at h

/-! ### C3: loads of physical bins vs the `positions` output -/

/-- C3 counterexample — slot reuse breaks the per-`positions`-index load
bound: on the valid instance `K = 1`, `min_size = 1`, items `[1, 1]`, the
first bin is retired and its slot index 0 is reused for the second item's
new bin, so `positions = [0, 0]` while the two items sum to `2 > K`. -/
theorem C3_counterexample :
    Valid 1 1 [1, 1] ∧ (bf_run 1 1 [1, 1]).positions = [0, 0] ∧
      ¬ ∀ b : Nat,
        ((((List.zip [1, 1] (bf_run 1 1 [1, 1]).positions).filter
          (fun p => p.2 == b)).map Prod.fst).sum ≤ 1) :=
  ⟨by decide, by decide, fun h => absurd (h 0) (by decide)⟩

/-- C3 (amended) — what does hold: for every valid instance, the load of
every physical bin (open or retired, as tracked by the enriched run) never
exceeds `K`; it is only the `positions` array that can assign one slot
index to items of two different physical bins. -/
theorem C3_bin_loads_le_K (K minsz : Nat) (objects : List Nat)
    (hv : Valid K minsz objects) :
    ∀ b ∈ (bfx_run K minsz objects).allBins, b.sum ≤ K := by
  cases objects with
  | nil =>
    intro b hb
    simp only [bfx_run, List.foldl_nil, bfx_init, BFXState.allBins] at hb
    simp at hb
    subst hb
    simp
  | cons a l =>
    have h := bfx_run_ainv K minsz (a :: l) hv (by simp)
    intro b hb
    simp only [BFXState.allBins, List.mem_append] at hb
    rcases hb with h' | h'
    · exact h.1 b h'
    · exact (h.2.1 b h').2

/-- C3 witness at a concrete valid instance. -/
theorem C3_witness :
    Valid 10 1 [4, 8, 1, 4, 2, 1] ∧
      ∀ b ∈ (bfx_run 10 1 [4, 8, 1, 4, 2, 1]).allBins, b.sum ≤ 10 :=
  ⟨by decide, C3_bin_loads_le_K 10 1 [4, 8, 1, 4, 2, 1] (by decide)⟩

/-! ### C6: which open bins can exceed the retirement limit -/

/-- C6 counterexample — the claim says every open bin has load at most
`K - min_size` after each item, newly created bins included.  On the valid
instance `K = 2`, `min_size = 2`, items `[2, 2]`, the second item opens a
new bin of load 2; the new-bin branch has no retirement check, so that bin
stays in the open working set with load `2 > K - min_size = 0`. -/
theorem C6_counterexample :
    Valid 2 2 [2, 2] ∧
      ¬ ∀ j < (bf_run 2 2 [2, 2]).numOpen,
        (bf_run 2 2 [2, 2]).bins.getD j 0 ≤ 2 - 2 := by
  constructor
  · decide
  · intro h
    exact absurd (h 0 (by decide)) (by decide)

/-- C6 (amended) — after each item of a valid instance, every bin in the
open working set either has load at most `K - min_size`, or was created by
the new-bin branch for an item no open bin could accept and still holds
only that single item (the retirement check runs only in the placement
branch, so such a bin is never removed from the open set). -/
theorem C6_open_bins_limit (K minsz : Nat) (objects : List Nat)
    (hv : Valid K minsz objects) (i : Nat) (hi : i ≤ objects.length) :
    ∀ b ∈ ((objects.take i).foldl (bfx_step objects.length K (K - minsz))
        bfx_init).opens,
      b.sum ≤ K - minsz ∨ ∃ x, b = [x] := by
  rcases Nat.eq_zero_or_pos objects.length with h0 | hpos
  · have : i = 0 := by omega
    subst this
    intro b hb
    simp only [List.take_zero, List.foldl_nil, bfx_init] at hb
    simp at hb
    subst hb
    left
    simp
  · have h := (bf_run_inv K minsz objects hv hpos i hi).1
    intro b hb
    rcases Nat.lt_or_ge (K - minsz) b.sum with hgt | hle
    · exact Or.inr (h.2.2.2.2.2.2.2.1 b hb hgt)
    · exact Or.inl hle

/-- C6 witness at a concrete valid instance. -/
theorem C6_witness :
    Valid 10 1 [4, 8, 1, 4, 2, 1] ∧ (6 : Nat) ≤ 6 ∧
      ∀ b ∈ (([4, 8, 1, 4, 2, 1].take 6).foldl (bfx_step 6 10 (10 - 1))
          bfx_init).opens,
        b.sum ≤ 10 - 1 ∨ ∃ x, b = [x] :=
  ⟨by decide, by decide, C6_open_bins_limit 10 1 [4, 8, 1, 4, 2, 1] (by decide) 6 (by decide)⟩

/-! ### C8: the scan picks the best fitting open bin, lowest index first -/

/-- C8 — at every step of `best_fit` on a valid instance, the scan selects
an open bin exactly when one fits; the selected bin's resulting load
`bins[best] + s` is at most `K` and is the maximum resulting load among
open bins that fit, and every lower-indexed open bin that fits has a
strictly smaller resulting load (ties are broken by the lowest index); a
new bin is opened only when no open bin's load plus the item is ≤ K. -/
theorem C8_scan_best_fit (K minsz : Nat) (objects : List Nat)
    (hv : Valid K minsz objects) (i : Nat) (hi : i < objects.length)
    (st : BFState) (q : Nat × Nat)
    (hst : st = (objects.take i).foldl (bf_step objects.length K (K - minsz))
      (bf_init objects.length))
    (hq : q = bf_scan objects.length K (objects.getD i 0) st.bins st.numOpen) :
    (q.1 < objects.length →
      q.1 < st.numOpen ∧
      st.bins.getD q.1 0 + objects.getD i 0 ≤ K ∧
      (∀ j, j < st.numOpen → st.bins.getD j 0 + objects.getD i 0 ≤ K →
        st.bins.getD j 0 + objects.getD i 0 ≤ st.bins.getD q.1 0 + objects.getD i 0) ∧
      (∀ j, j < q.1 → st.bins.getD j 0 + objects.getD i 0 ≤ K →
        st.bins.getD j 0 + objects.getD i 0 < st.bins.getD q.1 0 + objects.getD i 0)) ∧
    (q.1 = objects.length ↔
      ∀ j, j < st.numOpen → ¬ (st.bins.getD j 0 + objects.getD i 0 ≤ K)) := by
  have hpos : 1 ≤ objects.length := by omega
  have hrun := bf_run_inv K minsz objects hv hpos i (by omega)
  have hnum : st.numOpen ≤ objects.length := by
    have h2 := hrun.2.2.1
    have h7 := hrun.1.2.2.2.2.2.2.1
    have hti : (objects.take i).length = i := by
      rw [List.length_take]; omega
    rw [hti] at h7
    rw [hst]
    omega
  have hs1 : 1 ≤ objects.getD i 0 := by
    have h := hv.2.2 _ (getD_mem hi 0)
    have := hv.1
    omega
  rcases bf_scan_spec objects.length K (objects.getD i 0) st.bins st.numOpen with
    ⟨heq, hnone⟩ | ⟨h1, h2, h3, h4, h5, h6⟩
  · rw [← hq] at heq
    constructor
    · intro h
      rw [heq] at h
      simp only at h
      omega
    · constructor
      · intro _ j hj hle
        have := hnone j hj
        rw [scanFits] at this
        exact this ⟨hle, by omega⟩
      · intro _
        rw [heq]
  · rw [← hq] at h1 h2 h3 h4 h5 h6
    constructor
    · intro _
      refine ⟨h1, by omega, fun j hj hle => by have := h5 j hj hle; omega,
        fun j hj hle => by have := h6 j hj hle; omega⟩
    · constructor
      · intro h
        omega
      · intro h
        exact absurd (by omega : st.bins.getD q.1 0 + objects.getD i 0 ≤ K) (h _ h1)

/-- C8 witness at a concrete valid instance and step. -/
theorem C8_witness :
    Valid 10 1 [4, 8, 1, 4, 2, 1] ∧ (3 : Nat) < 6 ∧
      ((bf_scan 6 10 ([4, 8, 1, 4, 2, 1].getD 3 0)
          (([4, 8, 1, 4, 2, 1].take 3).foldl (bf_step 6 10 (10 - 1))
            (bf_init 6)).bins
          (([4, 8, 1, 4, 2, 1].take 3).foldl (bf_step 6 10 (10 - 1))
            (bf_init 6)).numOpen).1 = 6 ↔
        ∀ j, j < (([4, 8, 1, 4, 2, 1].take 3).foldl (bf_step 6 10 (10 - 1))
            (bf_init 6)).numOpen →
          ¬ ((([4, 8, 1, 4, 2, 1].take 3).foldl (bf_step 6 10 (10 - 1))
              (bf_init 6)).bins.getD j 0 + [4, 8, 1, 4, 2, 1].getD 3 0 ≤ 10)) :=
  ⟨by decide, by decide,
    (C8_scan_best_fit 10 1 [4, 8, 1, 4, 2, 1] (by decide) 3 (by decide) _ _ rfl rfl).2⟩

/-! ### C7: items larger than the capacity -/

/-- Invariant of the enriched run when items may exceed `K` (only the first
item is required to fit): every oversized item sits alone in its bin, the
bins partition the processed items, and the bin count stays below the
array bound. -/
def OInv (K : Nat) (pre : List Nat) (sx : BFXState) : Prop :=
  (∀ b ∈ sx.allBins, ∀ x ∈ b, K < x → b = [x]) ∧
  ((sx.allBins.map List.length).sum = pre.length) ∧
  (1 ≤ pre.length → ∀ b ∈ sx.allBins, b ≠ []) ∧
  (sx.opens.length + sx.fulls.length ≤ max 1 pre.length) ∧
  (pre = [] → sx = bfx_init)

theorem oinv_init (K : Nat) : OInv K [] bfx_init := by
  refine ⟨?_, ?_, ?_, ?_, ?_⟩ <;> simp [bfx_init, BFXState.allBins]

theorem oinv_step (n K limit : Nat) (pre : List Nat) (sx : BFXState) (s : Nat)
    (hinv : OInv K pre sx) (hs1 : 1 ≤ s) (hfirst : pre = [] → s ≤ K)
    (hlen : sx.opens.length ≤ n) :
    OInv K (pre ++ [s]) (bfx_step n K limit sx s) := by
  obtain ⟨o1, o2, o3, o4, o5⟩ := hinv
  rcases bfx_step_cases n K limit sx s hlen with
    ⟨bb, hbb, hfitK, hfit0, hmax, hcase⟩ | ⟨hnone, hstep⟩
  · -- the item fits in open bin bb, so neither it nor the bin is oversized
    have hbmem : sx.opens.getD bb [] ∈ sx.opens := getD_mem hbb []
    have hnewok : ∀ x ∈ sx.opens.getD bb [] ++ [s], ¬ K < x := by
      intro x hx hKx
      rcases List.mem_append.mp hx with h | h
      · have := o1 _ (List.mem_append_left _ hbmem) x h hKx
        have hxs : (sx.opens.getD bb []).sum = x := by rw [this]; simp
        omega
      · simp only [List.mem_cons, List.not_mem_nil, or_false] at h
        subst h
        omega
    rcases hcase with ⟨hle, hstep⟩ | ⟨hgt, hfulls, hperm⟩
    · rw [hstep]
      have memset : ∀ b' ∈ sx.opens.set bb (sx.opens.getD bb [] ++ [s]),
          b' ∈ sx.opens ∨ b' = sx.opens.getD bb [] ++ [s] :=
        fun b' h => List.mem_or_eq_of_mem_set h
      have hsum_len := sum_map_set List.length sx.opens bb
        (sx.opens.getD bb [] ++ [s]) hbb
      refine ⟨?_, ?_, ?_, ?_, by simp⟩
      · intro b' hb' x hx hKx
        simp only [BFXState.allBins, List.mem_append] at hb'
        rcases hb' with h | h
        · rcases memset b' h with h' | h'
          · exact o1 b' (by simp [BFXState.allBins, h']) x hx hKx
          · subst h'
            exact absurd hKx (hnewok x hx)
        · exact o1 b' (by simp [BFXState.allBins, h]) x hx hKx
      · show ((((sx.opens.set bb (sx.opens.getD bb [] ++ [s])) ++ sx.fulls).map
          List.length).sum = (pre ++ [s]).length)
        simp only [BFXState.allBins, List.map_append, List.sum_append] at o2 ⊢
        simp only [List.length_append, List.length_cons, List.length_nil]
        have : (sx.opens.getD bb [] ++ [s]).length =
            (sx.opens.getD bb []).length + 1 := by simp
        omega
      · intro _ b' hb'
        simp only [BFXState.allBins, List.mem_append] at hb'
        by_cases hpre : pre = []
        · have := o5 hpre
          subst this
          have hbb0 : bb = 0 := by
            simp only [bfx_init, List.length_cons, List.length_nil] at hbb
            omega
          subst hbb0
          rcases hb' with h | h
          · have hb2 : b' = [s] := by simpa [bfx_init] using h
            rw [hb2]
            simp
          · simp [bfx_init] at h
        · have hq : 1 ≤ pre.length := by
            cases pre with
            | nil => simp at hpre
            | cons a l => simp
          rcases hb' with h | h
          · rcases memset b' h with h' | h'
            · exact o3 hq b' (by simp [BFXState.allBins, h'])
            · rw [h']; simp
          · exact o3 hq b' (by simp [BFXState.allBins, h])
      · simp only [List.length_set]
        simp only [List.length_append] at o4 ⊢
        omega
    · -- the bin is retired
      rw [eraseIdx_set] at hperm
      set st' := bfx_step n K limit sx s with hst'
      have hmem_opens : ∀ b' ∈ st'.opens, b' ∈ sx.opens :=
        fun b' h => List.mem_of_mem_eraseIdx (hperm.mem_iff.mp h)
      have hlensum : ((st'.opens.map List.length).sum : Nat) =
          ((sx.opens.eraseIdx bb).map List.length).sum :=
        (hperm.map List.length).sum_eq
      have hlen_erase := sum_map_eraseIdx List.length sx.opens bb hbb
      have hlen' : st'.opens.length = sx.opens.length - 1 := by
        rw [hperm.length_eq, List.length_eraseIdx, if_pos hbb]
      refine ⟨?_, ?_, ?_, ?_, by simp⟩
      · intro b' hb' x hx hKx
        simp only [BFXState.allBins, List.mem_append] at hb'
        rcases hb' with h | h
        · exact o1 b' (by simp [BFXState.allBins, hmem_opens b' h]) x hx hKx
        · rw [hfulls] at h
          rcases List.mem_append.mp h with h' | h'
          · exact o1 b' (by simp [BFXState.allBins, h']) x hx hKx
          · simp only [List.mem_cons, List.not_mem_nil, or_false] at h'
            subst h'
            exact absurd hKx (hnewok x hx)
      · show ((st'.allBins.map List.length).sum = (pre ++ [s]).length)
        simp only [BFXState.allBins, List.map_append, List.sum_append] at o2 ⊢
        rw [hlensum, hfulls]
        simp only [List.map_append, List.sum_append, List.map_cons, List.sum_cons,
          List.map_nil, List.sum_nil, List.length_append, List.length_cons,
          List.length_nil]
        have : (sx.opens.getD bb [] ++ [s]).length =
            (sx.opens.getD bb []).length + 1 := by simp
        omega
      · intro _ b' hb'
        simp only [BFXState.allBins, List.mem_append] at hb'
        rcases hb' with h | h
        · by_cases hpre : pre = []
          · rw [o5 hpre] at hperm hbb
            have hbb0 : bb = 0 := by
              simp only [bfx_init, List.length_cons, List.length_nil] at hbb
              omega
            subst hbb0
            have hz : (bfx_init.opens.eraseIdx 0) = ([] : List (List Nat)) := rfl
            rw [hz] at hperm
            rw [hperm.eq_nil] at h
            simp at h
          · have hq : 1 ≤ pre.length := by
              cases pre with
              | nil => simp at hpre
              | cons a l => simp
            exact o3 hq b' (by simp [BFXState.allBins, hmem_opens b' h])
        · rw [hfulls] at h
          rcases List.mem_append.mp h with h' | h'
          · by_cases hpre : pre = []
            · rw [o5 hpre] at h'
              simp [bfx_init] at h'
            · have hq : 1 ≤ pre.length := by
                cases pre with
                | nil => simp at hpre
                | cons a l => simp
              exact o3 hq b' (by simp [BFXState.allBins, h'])
          · simp only [List.mem_cons, List.not_mem_nil, or_false] at h'
            rw [h']
            simp
      · rw [hlen', hfulls]
        simp only [List.length_append, List.length_cons, List.length_nil] at o4 ⊢
        omega
  · -- no open bin accepts the item: new singleton bin
    have hpre : pre ≠ [] := by
      intro hp
      have := o5 hp
      subst this
      have h0 : scanFits K s ((bfx_init).opens.map List.sum) 0 := by
        rw [scanFits]
        constructor
        · show (bfx_init.opens.map List.sum).getD 0 0 + s ≤ K
          have hz : ((bfx_init.opens.map List.sum).getD 0 0) = 0 := rfl
          rw [hz]
          have := hfirst hp
          omega
        · show 0 < (bfx_init.opens.map List.sum).getD 0 0 + s
          have hz : ((bfx_init.opens.map List.sum).getD 0 0) = 0 := rfl
          rw [hz]
          omega
      exact hnone 0 (by simp [bfx_init]) h0
    have hq : 1 ≤ pre.length := by
      cases pre with
      | nil => simp at hpre
      | cons a l => simp
    rw [hstep]
    refine ⟨?_, ?_, ?_, ?_, by simp⟩
    · intro b' hb' x hx hKx
      simp only [BFXState.allBins, List.mem_append] at hb'
      rcases hb' with (h | h) | h
      · exact o1 b' (by simp [BFXState.allBins, h]) x hx hKx
      · simp only [List.mem_cons, List.not_mem_nil, or_false] at h
        subst h
        simp only [List.mem_cons, List.not_mem_nil, or_false] at hx
        subst hx
        rfl
      · exact o1 b' (by simp [BFXState.allBins, h]) x hx hKx
    · show (((sx.opens ++ [[s]] ++ sx.fulls).map List.length).sum = (pre ++ [s]).length)
      simp only [List.map_append, List.sum_append, List.map_cons, List.map_nil,
        List.sum_cons, List.sum_nil, List.length_cons, List.length_nil,
        List.length_append]
      simp only [BFXState.allBins, List.map_append, List.sum_append] at o2
      omega
    · intro _ b' hb'
      simp only [BFXState.allBins, List.mem_append] at hb'
      rcases hb' with (h | h) | h
      · exact o3 hq b' (by simp [BFXState.allBins, h])
      · simp only [List.mem_cons, List.not_mem_nil, or_false] at h
        rw [h]
        simp
      · exact o3 hq b' (by simp [BFXState.allBins, h])
    · simp only [List.length_append, List.length_cons, List.length_nil]
      omega

theorem bf_run_oinv (K minsz : Nat) (objects : List Nat)
    (hpos : ∀ s ∈ objects, 1 ≤ s) (hfirst : objects.getD 0 0 ≤ K)
    (hn : 1 ≤ objects.length) (i : Nat) (hi : i ≤ objects.length) :
    OInv K (objects.take i)
      ((objects.take i).foldl (bfx_step objects.length K (K - minsz)) bfx_init) ∧
    SimR objects.length
      ((objects.take i).foldl (bf_step objects.length K (K - minsz))
        (bf_init objects.length))
      ((objects.take i).foldl (bfx_step objects.length K (K - minsz)) bfx_init) := by
  induction i with
  | zero =>
    exact ⟨by simpa using oinv_init K, by simpa using sim_init objects.length hn⟩
  | succ i ih =>
    obtain ⟨iha, ihs⟩ := ih (by omega)
    have hilt : i < objects.length := by omega
    have hmem : objects.getD i 0 ∈ objects := getD_mem hilt 0
    have hs1 : 1 ≤ objects.getD i 0 := hpos _ hmem
    have hlenx : ((objects.take i).foldl (bfx_step objects.length K (K - minsz))
        bfx_init).opens.length ≤ objects.length := by
      have h7 := iha.2.2.2.1
      have hti : (objects.take i).length = i := by
        rw [List.length_take]; omega
      rw [hti] at h7
      omega
    have hfirstx : objects.take i = [] → objects.getD i 0 ≤ K := by
      intro hp
      have : i = 0 := by
        by_contra hne
        have : (objects.take i).length = i := by rw [List.length_take]; omega
        rw [hp] at this
        simp at this
        omega
      subst this
      exact hfirst
    rw [foldl_take_succ (bfx_step objects.length K (K - minsz)) objects i hilt _ 0,
      foldl_take_succ (bf_step objects.length K (K - minsz)) objects i hilt _ 0]
    constructor
    · have := oinv_step objects.length K (K - minsz) (objects.take i) _
        (objects.getD i 0) iha hs1 hfirstx hlenx
      rwa [← take_succ_getD objects i 0 hilt] at this
    · refine sim_step objects.length K (K - minsz) _ _ (objects.getD i 0) ihs hlenx ?_
      rcases Nat.eq_zero_or_pos i with hi0 | hi1
      · subst hi0
        right
        simp only [List.take_zero, List.foldl_nil]
        rcases bf_scan_spec objects.length K (objects.getD 0 0)
            (bfx_init.opens.map List.sum) bfx_init.opens.length with
          ⟨heq, hnone⟩ | ⟨h1, _⟩
        · exfalso
          refine hnone 0 (by simp [bfx_init]) ?_
          rw [scanFits]
          constructor
          · show (bfx_init.opens.map List.sum).getD 0 0 + objects.getD 0 0 ≤ K
            have hz : ((bfx_init.opens.map List.sum).getD 0 0) = 0 := rfl
            rw [hz]
            have := hfirstx rfl
            omega
          · show 0 < (bfx_init.opens.map List.sum).getD 0 0 + objects.getD 0 0
            have hz : ((bfx_init.opens.map List.sum).getD 0 0) = 0 := rfl
            rw [hz]
            omega
        · exact h1
      · left
        have h7 := iha.2.2.2.1
        have hti : (objects.take i).length = i := by
          rw [List.length_take]; omega
        rw [hti] at h7
        omega

/-- C7 counterexample — the claim says `best_fit` keeps all array accesses
in bounds even when items exceed `K`.  With `K = 1` and the single item
`[2]` (which violates `item ≤ K`), the item fits no bin including the
initial one, so the new-bin branch writes `bins[1]` in an array of size
`n = 1`: out of bounds. -/
theorem C7_counterexample :
    (1 : Nat) < 2 ∧ (bf_run 1 1 [2]).oob = true := by decide

/-- C7 (amended) — provided the first item is at most `K` (and all items
are positive), `best_fit` tolerates later oversized items without failure:
every array access stays in bounds, each oversized item sits alone in a
bin of its own that never accepts another item, and the returned count is
the total number of bins.  (When every item opens a new bin — e.g. the
first item already exceeds `K` — the final new-bin write lands at index
`n`, out of bounds, as the counterexample shows.) -/
theorem C7_oversized_safe (K minsz : Nat) (objects : List Nat)
    (hpos : ∀ s ∈ objects, 1 ≤ s) (hfirst : objects.getD 0 0 ≤ K)
    (hn : 1 ≤ objects.length) :
    (bf_run K minsz objects).oob = false ∧
      (∀ b ∈ (bfx_run K minsz objects).allBins, ∀ x ∈ b, K < x → b = [x]) ∧
      best_fit K minsz objects =
        (bfx_run K minsz objects).opens.length +
          (bfx_run K minsz objects).fulls.length := by
  have h := bf_run_oinv K minsz objects hpos hfirst hn objects.length (le_refl _)
  rw [List.take_length] at h
  obtain ⟨⟨o1, _, _, _, _⟩, _, hs2, hs3, _, hs5⟩ := h
  refine ⟨?_, ?_, ?_⟩
  · rw [bf_run]
    exact hs5
  · intro b hb x hx hKx
    rw [bfx_run] at hb
    exact o1 b hb x hx hKx
  · rw [best_fit, bf_run, bfx_run]
    omega

/-- C7 witness: a concrete instance whose later items exceed `K = 5`. -/
theorem C7_witness :
    (∀ s ∈ ([3, 7, 7, 2] : List Nat), 1 ≤ s) ∧
      (((bf_run 5 1 [3, 7, 7, 2]).oob = false) ∧
        (∀ b ∈ (bfx_run 5 1 [3, 7, 7, 2]).allBins, ∀ x ∈ b, 5 < x → b = [x]) ∧
        best_fit 5 1 [3, 7, 7, 2] =
          (bfx_run 5 1 [3, 7, 7, 2]).opens.length +
            (bfx_run 5 1 [3, 7, 7, 2]).fulls.length) :=
  ⟨by decide, C7_oversized_safe 5 1 [3, 7, 7, 2] (by decide) (by decide) (by decide)⟩

/-! ### Heap lemmas: element access, permutation, root maximality -/

theorem length_setE (l : List Nat) (j v : Nat) : (setE l j v).length = l.length := by
  simp [setE]

theorem length_swapE (l : List Nat) (i j : Nat) : (swapE l i j).length = l.length := by
  simp [swapE, setE]

theorem getE_setE_self (l : List Nat) (j v : Nat) (h1 : 1 ≤ j) (h2 : j ≤ l.length) :
    getE (setE l j v) j = v := by
  rw [getE, setE]
  exact getD_set_self l (j - 1) v (by omega)

theorem getE_setE_ne (l : List Nat) (i j v : Nat) (h1 : 1 ≤ i) (h2 : 1 ≤ j)
    (hne : i ≠ j) : getE (setE l i v) j = getE l j := by
  rw [getE, setE]
  exact getD_set_ne l (i - 1) (j - 1) v (by omega)

theorem getE_swapE_fst (l : List Nat) (i j : Nat) (h1 : 1 ≤ i) (h2 : i ≤ l.length)
    (hj1 : 1 ≤ j) (hne : i ≠ j) : getE (swapE l i j) i = getE l j := by
  rw [swapE, getE_setE_ne _ _ _ _ hj1 h1 (Ne.symm hne),
    getE_setE_self _ _ _ h1 h2]

theorem getE_swapE_snd (l : List Nat) (i j : Nat) (h1 : 1 ≤ j) (h2 : j ≤ l.length) :
    getE (swapE l i j) j = getE l i := by
  rw [swapE, getE_setE_self _ _ _ h1 (by simp [setE]; omega)]

theorem getE_swapE_other (l : List Nat) (i j k : Nat) (hi : 1 ≤ i) (hj : 1 ≤ j)
    (hk : 1 ≤ k) (hki : k ≠ i) (hkj : k ≠ j) :
    getE (swapE l i j) k = getE l k := by
  rw [swapE, getE_setE_ne _ _ _ _ hj hk (Ne.symm hkj),
    getE_setE_ne _ _ _ _ hi hk (Ne.symm hki)]

theorem getE_append_left (l : List Nat) (v : Nat) (k : Nat) (h1 : 1 ≤ k)
    (h2 : k ≤ l.length) : getE (l ++ [v]) k = getE l k := by
  rw [getE, getE, List.getD_eq_getElem?_getD, List.getD_eq_getElem?_getD,
    List.getElem?_append_left (by omega)]

theorem getE_append_last (l : List Nat) (v : Nat) :
    getE (l ++ [v]) (l.length + 1) = v := by
  rw [getE, List.getD_eq_getElem?_getD]
  have : (l ++ [v])[l.length]? = some v := by
    rw [List.getElem?_eq_getElem (by simp)]
    rw [List.getElem_concat_length l v _ rfl]
  simp [this]

theorem ite_eq_comm_nat (p q : Nat) :
    (if p = q then (1:Nat) else 0) = (if q = p then (1:Nat) else 0) := by
  by_cases h : p = q
  · rw [if_pos h, if_pos h.symm]
  · rw [if_neg h, if_neg (fun hh => h hh.symm)]

theorem count_set_getD (l : List Nat) (i v a : Nat) (hi : i < l.length) :
    (l.set i v).count a + (if l.getD i 0 = a then 1 else 0) =
      l.count a + (if v = a then 1 else 0) := by
  induction l generalizing i with
  | nil => simp at hi
  | cons x t ih =>
    cases i with
    | zero =>
      simp only [List.set_cons_zero, List.getD_cons_zero, List.count_cons, beq_iff_eq]
      rw [ite_eq_comm_nat x a, ite_eq_comm_nat v a]
      omega
    | succ i =>
      simp only [List.set_cons_succ, List.getD_cons_succ, List.count_cons, beq_iff_eq]
      have := ih i (by simpa using hi)
      omega

theorem swapE_perm (l : List Nat) (i j : Nat) (hi1 : 1 ≤ i) (hi : i ≤ l.length)
    (hj1 : 1 ≤ j) (hj : j ≤ l.length) : (swapE l i j).Perm l := by
  rw [List.perm_iff_count]
  intro a
  rw [swapE, setE, setE]
  have h1 := count_set_getD l (i - 1) (getE l j) a (by omega)
  have h2 := count_set_getD (l.set (i - 1) (getE l j)) (j - 1) (getE l i) a
    (by simp; omega)
  by_cases hij : i = j
  · subst hij
    have hg : (l.set (i - 1) (getE l i)).getD (i - 1) 0 = getE l i :=
      getD_set_self l (i - 1) _ (by omega)
    simp only [hg] at h2
    have e1 : l.getD (i - 1) 0 = getE l i := rfl
    simp only [e1] at h1
    omega
  · have hg : (l.set (i - 1) (getE l j)).getD (j - 1) 0 = l.getD (j - 1) 0 :=
      getD_set_ne l (i - 1) (j - 1) _ (by omega)
    simp only [hg] at h2
    have e1 : l.getD (i - 1) 0 = getE l i := rfl
    have e2 : l.getD (j - 1) 0 = getE l j := rfl
    simp only [e1] at h1
    simp only [e2] at h2
    omega

theorem heap_le_root (l : List Nat) (hh : HeapProp l) :
    ∀ j, 1 ≤ j → j ≤ l.length → getE l j ≤ getE l 1 := by
  intro j
  induction j using Nat.strong_induction_on with
  | _ j ih =>
    intro h1 hl
    rcases Nat.lt_or_ge j 2 with h2 | h2
    · have : j = 1 := by omega
      subst this
      exact le_refl _
    · exact le_trans (hh j h2 hl) (ih (j / 2) (by omega) (by omega) (by omega))

theorem mem_le_root (l : List Nat) (hh : HeapProp l) (x : Nat) (hx : x ∈ l) :
    x ≤ getE l 1 := by
  obtain ⟨i, hi, hx⟩ := List.getElem_of_mem hx
  have hg : getE l (i + 1) = x := by
    rw [getE]
    simp only [Nat.add_sub_cancel]
    rw [List.getD_eq_getElem?_getD, List.getElem?_eq_getElem hi]
    simpa using hx
  rw [← hg]
  exact heap_le_root l hh (i + 1) (by omega) (by omega)

theorem root_mem (l : List Nat) (hne : l ≠ []) : getE l 1 ∈ l := by
  have : 0 < l.length := List.length_pos.mpr hne
  exact getD_mem (by omega) 0

/-- The state of `siftUp` at node `j`: heap order may fail only on the
edge from `j` to its parent, and `j`'s children are still at most `j`'s
parent. -/
def AUp (l : List Nat) (j : Nat) : Prop :=
  (∀ k, 2 ≤ k → k ≤ l.length → k ≠ j → getE l k ≤ getE l (k / 2)) ∧
  (2 ≤ j → ∀ k, 2 ≤ k → k ≤ l.length → k / 2 = j → getE l k ≤ getE l (j / 2))

theorem siftUp_heap :
    ∀ (l : List Nat) (j : Nat), AUp l j → 1 ≤ j → j ≤ l.length →
      HeapProp (siftUp l j) := by
  intro l j
  induction l, j using siftUp.induct with
  | case1 l j hg hswap ih =>
    intro ha h1 hl
    rw [siftUp, dif_pos hg, if_pos hswap]
    have hj2 : 2 ≤ j := hg.1
    have hjl : j ≤ l.length := hg.2
    have hp1 : 1 ≤ j / 2 := by omega
    have hpl : j / 2 ≤ l.length := by omega
    have hpj : j / 2 ≠ j := by omega
    have gs1 : getE (swapE l j (j / 2)) j = getE l (j / 2) :=
      getE_swapE_fst l j (j / 2) (by omega) hjl hp1 (fun h => hpj h.symm)
    have gs2 : getE (swapE l j (j / 2)) (j / 2) = getE l j :=
      getE_swapE_snd l j (j / 2) hp1 hpl
    have gs3 : ∀ k, 1 ≤ k → k ≠ j → k ≠ j / 2 →
        getE (swapE l j (j / 2)) k = getE l k :=
      fun k hk hkj hkp => getE_swapE_other l j (j / 2) k (by omega) hp1 hk hkj hkp
    refine ih ⟨?_, ?_⟩ hp1 (by rw [length_swapE]; exact hpl)
    · intro k hk2 hklen hkp
      rw [length_swapE] at hklen
      by_cases hkj : k = j
      · subst hkj
        rw [gs1, gs2]
        exact le_of_lt hswap
      · rw [gs3 k (by omega) hkj hkp]
        by_cases hkj2 : k / 2 = j
        · rw [hkj2, gs1]
          exact ha.2 hj2 k hk2 hklen hkj2
        · by_cases hkp2 : k / 2 = j / 2
          · rw [hkp2, gs2]
            have h5 := ha.1 k hk2 hklen hkj
            rw [hkp2] at h5
            exact le_trans h5 (le_of_lt hswap)
          · rw [gs3 (k / 2) (by omega) hkj2 hkp2]
            exact ha.1 k hk2 hklen hkj
    · intro hp2 k hk2 hklen hkparent
      rw [length_swapE] at hklen
      have hppj : j / 2 / 2 ≠ j := by omega
      have hppp : j / 2 / 2 ≠ j / 2 := by omega
      have hr : getE (swapE l j (j / 2)) (j / 2 / 2) = getE l (j / 2 / 2) :=
        gs3 (j / 2 / 2) (by omega) hppj hppp
      by_cases hkj : k = j
      · subst hkj
        rw [gs1, hr]
        exact ha.1 (k / 2) (by omega) (by omega) (fun h => hpj h)
      · have hkp : k ≠ j / 2 := by omega
        rw [gs3 k (by omega) hkj hkp, hr]
        have h5 := ha.1 k hk2 hklen hkj
        rw [hkparent] at h5
        exact le_trans h5 (ha.1 (j / 2) hp2 hpl hpj)
  | case2 l j hg hswap =>
    intro ha h1 hl
    rw [siftUp, dif_pos hg, if_neg hswap]
    intro k hk2 hklen
    by_cases hkj : k = j
    · subst hkj
      omega
    · exact ha.1 k hk2 hklen hkj
  | case3 l j hg =>
    intro ha h1 hl
    rw [siftUp, dif_neg hg]
    intro k hk2 hklen
    have hj1 : j = 1 := by omega
    exact ha.1 k hk2 hklen (by omega)

theorem siftUp_perm : ∀ (l : List Nat) (j : Nat), (siftUp l j).Perm l := by
  intro l j
  induction l, j using siftUp.induct with
  | case1 l j hg hswap ih =>
    rw [siftUp, dif_pos hg, if_pos hswap]
    exact ih.trans (swapE_perm l j (j / 2) (by omega) hg.2 (by omega) (by omega))
  | case2 l j hg hswap =>
    rw [siftUp, dif_pos hg, if_neg hswap]
  | case3 l j hg =>
    rw [siftUp, dif_neg hg]

theorem hpush_heap (l : List Nat) (v : Nat) (hh : HeapProp l) :
    HeapProp (hpush l v) := by
  refine siftUp_heap (l ++ [v]) (l.length + 1) ⟨?_, ?_⟩ (by omega) (by simp)
  · intro k hk2 hklen hkne
    have hk : k ≤ l.length := by
      simp only [List.length_append, List.length_cons, List.length_nil] at hklen
      omega
    rw [getE_append_left _ _ _ (by omega) hk,
      getE_append_left _ _ _ (by omega) (by omega)]
    exact hh k hk2 hk
  · intro h2 k hk2 hklen hkp
    exfalso
    simp only [List.length_append, List.length_cons, List.length_nil] at hklen
    omega

theorem hpush_perm (l : List Nat) (v : Nat) : (hpush l v).Perm (l ++ [v]) :=
  siftUp_perm _ _

theorem hpush_root (l : List Nat) (v : Nat) (hh : HeapProp l) :
    getE (hpush l v) 1 = max (getE l 1) v := by
  have hheap := hpush_heap l v hh
  have hperm := hpush_perm l v
  have hlen : (hpush l v).length = l.length + 1 := by
    rw [hperm.length_eq]
    simp
  have hne : hpush l v ≠ [] := by
    intro h
    rw [h] at hlen
    simp at hlen
  have hrm : getE (hpush l v) 1 ∈ l ++ [v] := hperm.mem_iff.mp (root_mem _ hne)
  have hv : v ≤ getE (hpush l v) 1 :=
    mem_le_root _ hheap v (hperm.mem_iff.mpr (by simp))
  have hroot : getE l 1 ≤ getE (hpush l v) 1 := by
    by_cases hl : l = []
    · subst hl
      have h0 : getE ([] : List Nat) 1 = 0 := rfl
      rw [h0]
      omega
    · exact mem_le_root _ hheap _ (hperm.mem_iff.mpr
        (List.mem_append_left _ (root_mem l hl)))
  have hub : getE (hpush l v) 1 ≤ max (getE l 1) v := by
    rcases List.mem_append.mp hrm with h | h
    · have := mem_le_root l hh _ h
      omega
    · simp only [List.mem_cons, List.not_mem_nil, or_false] at h
      omega
  omega

/-- Increasing the root and re-heapifying downward: since the root
dominated both children already, `reheap_down` is the identity, the heap
property is preserved and the new root is the increased value. -/
theorem place_root (l : List Nat) (v : Nat) (hh : HeapProp l) (hne : l ≠ [])
    (hv : getE l 1 ≤ v) :
    siftDown (setE l 1 v) 1 = setE l 1 v ∧ HeapProp (setE l 1 v) ∧
      getE (setE l 1 v) 1 = v ∧ (setE l 1 v).length = l.length := by
  have hlen1 : 1 ≤ l.length := by
    cases l with
    | nil => simp at hne
    | cons a t => simp
  have hgroot : getE (setE l 1 v) 1 = v := getE_setE_self l 1 v (le_refl 1) hlen1
  have hchild : ∀ c, 2 ≤ c → c ≤ l.length → getE (setE l 1 v) c ≤ v := by
    intro c h2 hc
    rw [getE_setE_ne l 1 c v (le_refl 1) (by omega) (by omega)]
    exact le_trans (heap_le_root l hh c (by omega) hc) hv
  have hheap : HeapProp (setE l 1 v) := by
    intro k hk2 hklen
    rw [length_setE] at hklen
    rw [getE_setE_ne l 1 k v (le_refl 1) (by omega) (by omega)]
    by_cases hkp : k / 2 = 1
    · rw [hkp, hgroot]
      exact le_trans (heap_le_root l hh k (by omega) hklen) hv
    · rw [getE_setE_ne l 1 (k / 2) v (le_refl 1) (by omega) (fun h => hkp h.symm)]
      exact hh k hk2 hklen
  refine ⟨?_, hheap, hgroot, length_setE l 1 v⟩
  rw [siftDown]
  by_cases hguard : 1 ≤ 1 ∧ 2 * 1 ≤ (setE l 1 v).length
  · rw [dif_pos hguard]
    have hlen' : (setE l 1 v).length = l.length := length_setE l 1 v
    have hnc : ¬ (getE (setE l 1 v) 1 < getE (setE l 1 v)
        (if 2 * 1 + 1 ≤ (setE l 1 v).length ∧
            getE (setE l 1 v) (2 * 1) < getE (setE l 1 v) (2 * 1 + 1)
          then 2 * 1 + 1 else 2 * 1)) := by
      rw [hgroot]
      split
      · rename_i hcc
        rw [hlen'] at hcc
        exact not_lt.mpr (hchild (2 * 1 + 1) (by omega) (by omega))
      · rw [hlen'] at hguard
        exact not_lt.mpr (hchild (2 * 1) (by omega) (by omega))
    simp only [if_neg hnc]
  · rw [dif_neg hguard]

theorem hsearch_const (K s B : Nat) (l : List Nat)
    (M : Nat) (hM : ∀ j, 1 ≤ j → j ≤ B → getE l j + s ≤ M) :
    ∀ (q : List HIdx) (best : Nat × Nat), (∀ x ∈ q, x.1 ≤ B) → M ≤ best.2 →
      hsearch K s B l q best = best := by
  intro q best
  induction q, best using hsearch.induct K s B l with
  | case1 best =>
    intro _ _
    rw [hsearch]
  | case2 best j q' t hfit ih =>
    intro hq hbest
    have hjB : j.1 ≤ B := hq j (List.mem_cons_self j q')
    have hle : getE l j.1 + s ≤ M := hM j.1 j.2 hjB
    have hfit' : getE l j.1 + s ≤ K := hfit
    have hnolt' : ¬ best.2 < getE l j.1 + s := by omega
    have hnolt : ¬ best.2 < t := hnolt'
    rw [dif_neg hnolt] at ih
    rw [hsearch]
    simp only [if_pos hfit', if_neg hnolt']
    refine ih ?_ hbest
    intro x hx
    rcases List.mem_append.mp hx with hx1 | hx1
    · rcases List.mem_append.mp hx1 with hx2 | hx2
      · exact hq x (List.mem_cons_of_mem _ hx2)
      · split at hx2
        · rename_i hc
          simp only [List.mem_singleton] at hx2
          subst hx2
          exact hc
        · simp at hx2
    · split at hx1
      · rename_i hc
        simp only [List.mem_singleton] at hx1
        subst hx1
        exact hc
      · simp at hx1
  | case3 best j q' t hnofit ih =>
    intro hq hbest
    have hnofit' : ¬ getE l j.1 + s ≤ K := hnofit
    rw [hsearch]
    simp only [if_neg hnofit']
    exact ih (fun x hx => hq x (List.mem_cons_of_mem _ hx)) hbest

theorem hsearch_root (K s n : Nat) (l : List Nat) (hh : HeapProp l)
    (hne : l ≠ []) (hfit : getE l 1 + s ≤ K) (hs : 1 ≤ s) :
    hsearch K s l.length l [⟨1, le_refl 1⟩] (n, 0) = (1, getE l 1 + s) := by
  have hlen : 1 ≤ l.length := List.length_pos.mpr hne
  rw [hsearch]
  have e1 : ((⟨1, le_refl 1⟩ : HIdx) : Nat) = 1 := rfl
  have h2 : (0 : Nat) < getE l 1 + s := by omega
  simp only [e1, if_pos hfit, if_pos h2]
  refine hsearch_const K s l.length l (getE l 1 + s) ?_ _ _ ?_ (le_refl _)
  · intro j h1 hj
    have := heap_le_root l hh j h1 hj
    omega
  · intro x hx
    rcases List.mem_append.mp hx with hx1 | hx1
    · rcases List.mem_append.mp hx1 with hx2 | hx2
      · simp at hx2
      · split at hx2
        · rename_i hc
          simp only [List.mem_singleton] at hx2
          subst hx2
          exact hc
        · simp at hx2
    · split at hx1
      · rename_i hc
        simp only [List.mem_singleton] at hx1
        subst hx1
        exact hc
      · simp at hx1

theorem bfh_step_eq (n K : Nat) (l : List Nat) (s : Nat) (hh : HeapProp l)
    (hs : 1 ≤ s) (hn : l ≠ [] → 2 ≤ n) :
    bfh_step n K l s =
      if l.length ≠ 0 ∧ getE l 1 + s ≤ K then setE l 1 (getE l 1 + s)
      else hpush l s := by
  by_cases hc : l.length ≠ 0 ∧ getE l 1 + s ≤ K
  · have hne : l ≠ [] := by
      intro h
      rw [h] at hc
      simp at hc
    have hroot := hsearch_root K s n l hh hne hc.2 hs
    have h1n : 1 < n := hn hne
    have hplace := place_root l (getE l 1 + s) hh hne (by omega)
    simp only [bfh_step, if_pos hc, hroot, if_pos h1n]
    exact hplace.1
  · simp only [bfh_step, if_neg hc, if_neg (lt_irrefl n)]

/-- The heap after the first `i` items of the run of `best_fit_heap` on
`objects` (the loop of lines 95–142 stopped after `i` iterations; `n` is
the full item count). -/
def bfh_pre (n K : Nat) (objects : List Nat) (i : Nat) : List Nat :=
  (objects.take i).foldl (bfh_step n K) []

/-- Run invariant of `best_fit_heap`: after any prefix the bin array is a
max-heap, every load is at most `K`, the total load equals the prefix sum,
and the bin count is at most the number of items seen (and positive once
one item has been seen). -/
def HInv (K : Nat) (objects : List Nat) (i : Nat) (l : List Nat) : Prop :=
  HeapProp l ∧ (∀ x ∈ l, x ≤ K) ∧ l.sum = (objects.take i).sum ∧
    l.length ≤ i ∧ (1 ≤ i → 1 ≤ l.length)

theorem bfh_pre_succ (n K : Nat) (objects : List Nat) (i : Nat)
    (hi : i < objects.length) :
    bfh_pre n K objects (i + 1) =
      bfh_step n K (bfh_pre n K objects i) (objects.getD i 0) := by
  rw [bfh_pre, bfh_pre, foldl_take_succ _ _ _ hi]

theorem bfh_inv (K minsz : Nat) (objects : List Nat) (hv : Valid K minsz objects) :
    ∀ i, i ≤ objects.length →
      HInv K objects i (bfh_pre objects.length K objects i) := by
  intro i
  induction i with
  | zero =>
    intro _
    have h0 : bfh_pre objects.length K objects 0 = [] := rfl
    rw [h0]
    unfold HInv
    refine ⟨?_, ?_, ?_, ?_, ?_⟩
    · intro j h2 hj
      simp at hj
      omega
    · intro x hx
      simp at hx
    · simp
    · simp
    · intro h
      omega
  | succ i ih =>
    intro hi1
    have hi : i < objects.length := by omega
    obtain ⟨h1, h2, h3, h4, h5⟩ := ih (by omega)
    set l := bfh_pre objects.length K objects i with hl
    set s := objects.getD i 0 with hs
    have hsmem : s ∈ objects := getD_mem hi 0
    have hsv := hv.2.2 s hsmem
    have hs1 : 1 ≤ s := le_trans hv.1 hsv.1
    have hn2 : l ≠ [] → 2 ≤ objects.length := by
      intro hne
      have : 1 ≤ l.length := List.length_pos.mpr hne
      omega
    have hstep := bfh_step_eq objects.length K l s h1 hs1 hn2
    rw [bfh_pre_succ _ _ _ _ hi, ← hl, ← hs, hstep]
    unfold HInv
    by_cases hc : l.length ≠ 0 ∧ getE l 1 + s ≤ K
    · rw [if_pos hc]
      have hne : l ≠ [] := by
        intro h
        rw [h] at hc
        simp at hc
      have hlen1 : 1 ≤ l.length := List.length_pos.mpr hne
      have hplace := place_root l (getE l 1 + s) h1 hne (by omega)
      refine ⟨hplace.2.1, ?_, ?_, ?_, ?_⟩
      · intro x hx
        rcases List.mem_or_eq_of_mem_set hx with h | h
        · exact h2 x h
        · omega
      · have hsum : (setE l 1 (getE l 1 + s)).sum + getE l 1 =
            l.sum + (getE l 1 + s) := sum_set_getD l 0 (getE l 1 + s) (by omega)
        rw [take_succ_getD objects i 0 hi, List.sum_append, ← hs]
        simp only [List.sum_cons, List.sum_nil]
        omega
      · rw [length_setE]
        omega
      · intro _
        rw [length_setE]
        omega
    · rw [if_neg hc]
      have hperm := hpush_perm l s
      have hlen : (hpush l s).length = l.length + 1 := by
        rw [hperm.length_eq]
        simp
      refine ⟨hpush_heap l s h1, ?_, ?_, ?_, ?_⟩
      · intro x hx
        rcases List.mem_append.mp (hperm.mem_iff.mp hx) with h | h
        · exact h2 x h
        · simp only [List.mem_singleton] at h
          omega
      · have hsum : (hpush l s).sum = l.sum + s := by
          rw [hperm.sum_eq]
          simp
        rw [hsum, take_succ_getD objects i 0 hi, List.sum_append, ← hs]
        simp only [List.sum_cons, List.sum_nil]
        omega
      · rw [hlen]
        omega
      · intro _
        rw [hlen]
        omega

/-- **C4.** In `best_fit_heap`, the max-heap property of the bins array
(every node's load at least both children's loads, 1-indexed, children of
node `j` at `2j` and `2j+1`) holds after every step of processing every
valid instance — each step being either the insertion of a new bin
(`bins.push`, line 139) or an in-place load increase followed by
re-heapification (lines 132–133).  The heap container itself is modelled
from the spec (§6): `push` appends a leaf and restores heap order upward,
`reheap_down` restores it downward from the increased node. -/
theorem C4_heap_invariant (K minsz : Nat) (objects : List Nat)
    (hv : Valid K minsz objects) (i : Nat) (hi : i ≤ objects.length) :
    HeapProp (bfh_pre objects.length K objects i) :=
  (bfh_inv K minsz objects hv i hi).1

theorem C4_witness :
    Valid 10 2 [6, 7, 3, 5] ∧ 3 ≤ [6, 7, 3, 5].length ∧
      HeapProp (bfh_pre [6, 7, 3, 5].length 10 [6, 7, 3, 5] 3) :=
  ⟨by decide, by decide,
    C4_heap_invariant 10 2 [6, 7, 3, 5] (by decide) 3 (by decide)⟩

/-! ### Relating the lookup histogram to the array run -/

theorem countP_set {α : Type} (p : α → Bool) (l : List α) (i : Nat) (v d : α)
    (hi : i < l.length) :
    (l.set i v).countP p + (if p (l.getD i d) then 1 else 0) =
      l.countP p + (if p v then 1 else 0) := by
  induction l generalizing i with
  | nil => simp at hi
  | cons a l ih =>
    cases i with
    | zero =>
      simp only [List.set_cons_zero, List.countP_cons, List.getD_cons_zero]
      omega
    | succ i =>
      simp only [List.set_cons_succ, List.countP_cons, List.getD_cons_succ]
      have := ih i (by simpa using hi)
      omega

theorem perm_getD_eraseIdx {α : Type} (l : List α) (i : Nat) (d : α)
    (hi : i < l.length) :
    l.Perm (l.getD i d :: l.eraseIdx i) := by
  induction l generalizing i with
  | nil => simp at hi
  | cons a l ih =>
    cases i with
    | zero => simp
    | succ i =>
      simp only [List.getD_cons_succ, List.eraseIdx_cons_succ]
      exact (List.Perm.cons a (ih i (by simpa using hi))).trans
        (List.Perm.swap _ _ _)

theorem countP_used_le (l : List (List Nat)) :
    l.countP (fun b => decide (b.sum ≠ 0)) ≤ (l.map List.length).sum := by
  induction l with
  | nil => simp
  | cons b l ih =>
    rw [List.countP_cons]
    simp only [List.map_cons, List.sum_cons, decide_eq_true_eq]
    by_cases hb : b.sum = 0
    · rw [if_neg (by omega)]
      omega
    · have hbne : b ≠ [] := by
        intro h
        rw [h] at hb
        simp at hb
      have h1 : 1 ≤ b.length := List.length_pos.mpr hbne
      rw [if_pos hb]
      omega

/-- The net effect on any bin predicate count of replacing bin `bb` of the
open list by `nb` (up to permutation of the resulting bin collection). -/
theorem countP_replace (p : List Nat → Bool) (opens fulls : List (List Nat))
    (bb : Nat) (nb : List Nat) (hbb : bb < opens.length)
    (l2 : List (List Nat)) (hperm : l2.Perm ((opens.set bb nb) ++ fulls)) :
    l2.countP p + (if p (opens.getD bb []) then 1 else 0) =
      (opens ++ fulls).countP p + (if p nb then 1 else 0) := by
  rw [hperm.countP_eq, List.countP_append, List.countP_append]
  have := countP_set p opens bb nb [] hbb
  omega

/-- Number of used (nonempty) bins of an enriched array state. -/
def usedB (sx : BFXState) : Nat :=
  sx.allBins.countP (fun b => decide (b.sum ≠ 0))

/-- Number of bins of an enriched array state whose remaining capacity is
exactly `c` (these are the bins counted by `bin_count[c]` for `c < K`). -/
def capCount (K : Nat) (sx : BFXState) (c : Nat) : Nat :=
  sx.allBins.countP (fun b => b.sum + c == K)

/-- Bisimulation between the enriched array state and the lookup histogram:
every search so far stayed in bounds, `bin_count[c]` counts the bins of
remaining capacity `c` for `c < K`, and `bin_count[K]` holds the `n - used`
never-touched bins. -/
def LRel (K n : Nat) (sx : BFXState) (st : LKState) : Prop :=
  st.ok = true ∧ st.hist.length = K + 1 ∧
    (∀ c, c < K → st.hist.getD c 0 = capCount K sx c) ∧
    st.hist.getD K 0 + usedB sx = n

theorem lrel_init (K n : Nat) : LRel K n bfx_init (lk_init n K) := by
  refine ⟨rfl, by simp [lk_init], ?_, ?_⟩
  · intro c hc
    show ((List.replicate (K + 1) 0).set K n).getD c 0 = capCount K bfx_init c
    rw [getD_set_ne _ _ _ _ (by omega)]
    have h1 : (List.replicate (K + 1) (0 : Nat)).getD c 0 = 0 := by
      simp [List.getD_eq_getElem?_getD]
    rw [h1]
    have h2 : capCount K bfx_init c = 0 := by
      simp only [capCount]
      apply List.countP_eq_zero.mpr
      intro b hb hpb
      have hb' : b = [] := by
        simpa [bfx_init, BFXState.allBins] using hb
      subst hb'
      simp only [List.sum_nil, Nat.zero_add, beq_iff_eq] at hpb
      omega
    rw [h2]
  · show ((List.replicate (K + 1) 0).set K n).getD K 0 + usedB bfx_init = n
    rw [getD_set_self _ _ _ (by rw [List.length_replicate]; omega)]
    have h0 : usedB bfx_init = 0 := rfl
    rw [h0]
    omega

theorem getD_set_self_g {α : Type} (l : List α) (i : Nat) (v d : α)
    (hi : i < l.length) :
    (l.set i v).getD i d = v := by
  induction l generalizing i with
  | nil => simp at hi
  | cons a l ih =>
    cases i with
    | zero => simp
    | succ i =>
      simp only [List.set_cons_succ, List.getD_cons_succ]
      exact ih i (by simpa using hi)

/-- One joint step of the bisimulation: processing an item through
`bfx_step` (the array heuristic) and `lk_step` (the lookup heuristic)
preserves `LRel`. -/
theorem lrel_step (K minsz n : Nat) (pre : List Nat) (sx : BFXState) (st : LKState)
    (s : Nat) (hrel : LRel K n sx st) (hainv : AInv K minsz pre sx)
    (hm1 : 1 ≤ minsz) (hms : minsz ≤ s) (hsK : s ≤ K)
    (hpre : pre.length < n) :
    LRel K n (bfx_step n K (K - minsz) sx s) (lk_step st s) := by
  obtain ⟨hok, hlen, hcap, htot⟩ := hrel
  obtain ⟨a1, a2, a3, a4, a5, a6, a7, a9, a8⟩ := hainv
  have hs1 : 1 ≤ s := by omega
  have husedle : usedB sx ≤ pre.length := by
    have h1 := countP_used_le sx.allBins
    rw [a4] at h1
    exact h1
  have hKpos : 1 ≤ st.hist.getD K 0 := by omega
  have hlenop : sx.opens.length ≤ n := by
    have h7 := a7
    omega
  rcases bfx_step_cases n K (K - minsz) sx s hlenop with
    ⟨bb, hbb, hfitK, hfit0, hmax, hcase⟩ | ⟨hnone, hstep⟩
  · -- the item is placed into the best open bin bb
    set nb := sx.opens.getD bb [] ++ [s] with hnb
    have hbsum : nb.sum = (sx.opens.getD bb []).sum + s := by
      rw [hnb]
      simp
    set L := (sx.opens.getD bb []).sum with hLdef
    set cur := K - L with hcur
    have hLK : L + s ≤ K := hfitK
    have hcurs : cur - s = K - (L + s) := by omega
    have hfind : lk_find st.hist s = some cur := by
      refine lk_find_eq st.hist s cur (by omega) (by rw [hlen]; omega) ?_ ?_
      · by_cases hL0 : L = 0
        · have hcK : cur = K := by omega
          rw [hcK]
          omega
        · have hltK : cur < K := by omega
          rw [hcap cur hltK]
          have hpos : 0 < capCount K sx cur := by
            simp only [capCount]
            refine List.countP_pos_iff.mpr
              ⟨sx.opens.getD bb [], List.mem_append_left _ (getD_mem hbb []), ?_⟩
            simp only [beq_iff_eq]
            omega
          omega
      · intro x hx1 hx2
        have hxK : x < K := by omega
        rw [hcap x hxK]
        simp only [capCount]
        apply List.countP_eq_zero.mpr
        intro b hb hpb
        simp only [beq_iff_eq] at hpb
        have hb' : b ∈ sx.opens ++ sx.fulls := hb
        rcases List.mem_append.mp hb' with hbo | hbf
        · obtain ⟨j, hj, hjb⟩ := List.mem_iff_getElem.mp hbo
          have hjd : sx.opens.getD j [] = b := by
            rw [List.getD_eq_getElem?_getD, List.getElem?_eq_getElem hj]
            simpa using hjb
          have hmx := hmax j hj (by rw [hjd]; omega)
          rw [hjd] at hmx
          omega
        · have h2b := a2 b hbf
          omega
    obtain ⟨hsc, hclt, hcnz, hzero⟩ := lk_find_spec st.hist s cur hfind
    have hstep2 : lk_step st s =
        { hist := (st.hist.set cur (st.hist.getD cur 0 - 1)).set (cur - s)
            ((st.hist.set cur (st.hist.getD cur 0 - 1)).getD (cur - s) 0 + 1)
          ok := st.ok } := by
      simp only [lk_step, hfind]
    have hcsne : cur - s ≠ cur := by omega
    have hkey : ∀ sx2 : BFXState,
        sx2.allBins.Perm ((sx.opens.set bb nb) ++ sx.fulls) →
        LRel K n sx2 (lk_step st s) := by
      intro sx2 hperm2
      have hrepl := fun p => countP_replace p sx.opens sx.fulls bb nb hbb
        sx2.allBins hperm2
      rw [hstep2]
      refine ⟨hok, by simp [hlen], ?_, ?_⟩
      · intro c hc
        by_cases hc1 : c = cur - s
        · subst hc1
          rw [getD_set_self _ _ _ (by simp only [List.length_set, hlen]; omega)]
          rw [getD_set_ne _ _ _ _ (fun h => hcsne h.symm)]
          rw [hcap (cur - s) (by omega)]
          have he := hrepl (fun b => b.sum + (cur - s) == K)
          simp only [BFXState.allBins, beq_iff_eq] at he
          rw [if_neg (by omega), if_pos (by omega)] at he
          simp only [capCount, BFXState.allBins]
          omega
        · by_cases hc2 : c = cur
          · subst hc2
            rw [getD_set_ne _ _ _ _ hcsne]
            rw [getD_set_self _ _ _ (by rw [hlen]; omega)]
            have hcnz' : 1 ≤ st.hist.getD cur 0 := Nat.one_le_iff_ne_zero.mpr hcnz
            rw [hcap cur (by omega)] at hcnz' ⊢
            have he := hrepl (fun b => b.sum + cur == K)
            simp only [BFXState.allBins, beq_iff_eq] at he
            rw [if_pos (by omega), if_neg (by omega)] at he
            simp only [capCount, BFXState.allBins] at hcnz' ⊢
            omega
          · rw [getD_set_ne _ _ _ _ (fun h => hc1 h.symm)]
            rw [getD_set_ne _ _ _ _ (fun h => hc2 h.symm)]
            rw [hcap c hc]
            have he := hrepl (fun b => b.sum + c == K)
            simp only [BFXState.allBins, beq_iff_eq] at he
            rw [if_neg (by omega), if_neg (by omega)] at he
            simp only [capCount, BFXState.allBins]
            omega
      · rw [getD_set_ne _ _ _ _ (show cur - s ≠ K by omega)]
        have hq := hrepl (fun b => decide (b.sum ≠ 0))
        simp only [BFXState.allBins, decide_eq_true_eq] at hq
        by_cases hL0 : L = 0
        · have hcK : cur = K := by omega
          rw [hcK, getD_set_self _ _ _ (by rw [hlen]; omega)]
          rw [if_neg (by omega), if_pos (by omega)] at hq
          simp only [usedB, BFXState.allBins] at htot ⊢
          omega
        · have hcK : cur ≠ K := by omega
          rw [getD_set_ne _ _ _ _ hcK]
          rw [if_pos (by omega), if_pos (by omega)] at hq
          simp only [usedB, BFXState.allBins] at htot ⊢
          omega
    rcases hcase with ⟨hle, hstep⟩ | ⟨hgt, hfulls, hperm⟩
    · rw [hstep]
      exact hkey _ (List.Perm.refl _)
    · refine hkey _ ?_
      have hab : (bfx_step n K (K - minsz) sx s).allBins =
          (bfx_step n K (K - minsz) sx s).opens ++
            (bfx_step n K (K - minsz) sx s).fulls := rfl
      rw [hab, hfulls]
      refine (List.Perm.append hperm (List.Perm.refl _)).trans ?_
      have hset : (sx.opens.set bb nb).Perm
          (nb :: (sx.opens.set bb nb).eraseIdx bb) := by
        have hp := perm_getD_eraseIdx (sx.opens.set bb nb) bb [] (by simpa using hbb)
        rwa [getD_set_self_g _ _ _ _ hbb] at hp
      refine List.Perm.trans ?_ (List.Perm.append hset.symm (List.Perm.refl sx.fulls))
      have h2 : ((sx.opens.set bb nb).eraseIdx bb) ++ (sx.fulls ++ [nb]) =
          (((sx.opens.set bb nb).eraseIdx bb) ++ sx.fulls) ++ [nb] :=
        (List.append_assoc _ _ _).symm
      rw [h2]
      exact List.perm_append_singleton _ _
  · -- no open bin accepts the item: a fresh bin [s] is opened
    have hfind : lk_find st.hist s = some K := by
      refine lk_find_eq st.hist s K hsK (by rw [hlen]; omega) (by omega) ?_
      intro x hx1 hx2
      rw [hcap x hx2]
      simp only [capCount]
      apply List.countP_eq_zero.mpr
      intro b hb hpb
      simp only [beq_iff_eq] at hpb
      have hb' : b ∈ sx.opens ++ sx.fulls := hb
      rcases List.mem_append.mp hb' with hbo | hbf
      · obtain ⟨j, hj, hjb⟩ := List.mem_iff_getElem.mp hbo
        have hjd : sx.opens.getD j [] = b := by
          rw [List.getD_eq_getElem?_getD, List.getElem?_eq_getElem hj]
          simpa using hjb
        refine hnone j hj ?_
        rw [scanFits, getD_map_sum _ _ hj, hjd]
        omega
      · have h2b := a2 b hbf
        omega
    have hstep2 : lk_step st s =
        { hist := (st.hist.set K (st.hist.getD K 0 - 1)).set (K - s)
            ((st.hist.set K (st.hist.getD K 0 - 1)).getD (K - s) 0 + 1)
          ok := st.ok } := by
      simp only [lk_step, hfind]
    rw [hstep, hstep2]
    have hKsne : K - s ≠ K := by omega
    have hcapc : ∀ p : List Nat → Bool,
        ((sx.opens ++ [[s]]) ++ sx.fulls).countP p =
          (sx.opens ++ sx.fulls).countP p + (if p [s] then 1 else 0) := by
      intro p
      rw [List.countP_append, List.countP_append, List.countP_append,
        List.countP_cons, List.countP_nil]
      omega
    refine ⟨hok, by simp [hlen], ?_, ?_⟩
    · intro c hc
      by_cases hcs : c = K - s
      · subst hcs
        rw [getD_set_self _ _ _ (by simp only [List.length_set, hlen]; omega)]
        rw [getD_set_ne _ _ _ _ (fun h => hKsne h.symm)]
        rw [hcap (K - s) (by omega)]
        simp only [capCount, BFXState.allBins]
        rw [hcapc,
          if_pos (by simp only [List.sum_cons, List.sum_nil, beq_iff_eq]; omega)]
      · rw [getD_set_ne _ _ _ _ (fun h => hcs h.symm)]
        rw [getD_set_ne _ _ _ _ (show (K : Nat) ≠ c by omega)]
        rw [hcap c hc]
        simp only [capCount, BFXState.allBins]
        rw [hcapc,
          if_neg (by simp only [List.sum_cons, List.sum_nil, beq_iff_eq]; omega)]
        omega
    · rw [getD_set_ne _ _ _ _ hKsne]
      rw [getD_set_self _ _ _ (by rw [hlen]; omega)]
      simp only [usedB, BFXState.allBins] at htot ⊢
      rw [hcapc,
        if_pos (by simp only [List.sum_cons, List.sum_nil, decide_eq_true_eq]; omega)]
      omega

theorem lrel_run (K minsz : Nat) (objects : List Nat) (hv : Valid K minsz objects)
    (hn : 1 ≤ objects.length) (i : Nat) (hi : i ≤ objects.length) :
    LRel K objects.length
      ((objects.take i).foldl (bfx_step objects.length K (K - minsz)) bfx_init)
      ((objects.take i).foldl lk_step (lk_init objects.length K)) := by
  induction i with
  | zero => simpa using lrel_init K objects.length
  | succ i ih =>
    have hilt : i < objects.length := by omega
    have hmem : objects.getD i 0 ∈ objects := getD_mem hilt 0
    obtain ⟨hms, hsK⟩ := hv.2.2 _ hmem
    have hainv := (bf_run_inv K minsz objects hv hn i (by omega)).1
    rw [foldl_take_succ (bfx_step objects.length K (K - minsz)) objects i hilt _ 0,
      foldl_take_succ lk_step objects i hilt _ 0]
    refine lrel_step K minsz objects.length (objects.take i) _ _ _ (ih (by omega))
      hainv hv.1 hms hsK ?_
    rw [List.length_take]
    omega

theorem sum_take_last (l : List Nat) (m : Nat) (h : l.length = m + 1) :
    (l.take m).sum + l.getD m 0 = l.sum := by
  have h1 : l.take (m + 1) = l.take m ++ [l.getD m 0] := take_succ_getD l m 0 (by omega)
  have h2 : l.take (m + 1) = l := by
    rw [← h]
    exact List.take_length l
  conv_rhs => rw [← h2, h1]
  rw [List.sum_append]
  simp

/-- For a nonempty valid instance the lookup heuristic reports exactly the
number of used (nonempty) bins of the array run. -/
theorem best_fit_lookup_eq_usedB (K minsz : Nat) (objects : List Nat)
    (hv : Valid K minsz objects) (hn : 1 ≤ objects.length) :
    best_fit_lookup K objects = usedB (bfx_run K minsz objects) := by
  have hrel := lrel_run K minsz objects hv hn objects.length (le_refl _)
  have hlinv := linv_run K minsz objects hv objects.length (le_refl _)
  rw [List.take_length] at hrel hlinv
  obtain ⟨_, hlen, _, htot⟩ := hrel
  obtain ⟨_, _, hsum, _⟩ := hlinv
  have hst := sum_take_last (objects.foldl lk_step (lk_init objects.length K)).hist
    K hlen
  rw [best_fit_lookup, lk_run, bfx_run]
  omega

/-- After a nonempty valid run every bin of the array heuristic is used. -/
theorem usedB_eq_length (K minsz : Nat) (objects : List Nat)
    (hv : Valid K minsz objects) (hn : 1 ≤ objects.length) :
    usedB (bfx_run K minsz objects) = (bfx_run K minsz objects).allBins.length := by
  have ha := bfx_run_ainv K minsz objects hv hn
  obtain ⟨a1, a2, a3, a4, a5, a6, a7, a9, a8⟩ := ha
  have hm1 := hv.1
  rw [usedB]
  apply List.countP_eq_length.mpr
  intro b hb
  have hbne : b ≠ [] := a6 hn b hb
  have hmin := a3 b hb hbne
  simp only [decide_eq_true_eq]
  omega

theorem ceil_div_le (S K m : Nat) (hK : 1 ≤ K) (h : S ≤ m * K) :
    (S + K - 1) / K ≤ m := by
  have he : (m + 1) * K = m * K + K := by ring
  have h2 : S + K - 1 < (m + 1) * K := by omega
  have h3 := (Nat.div_lt_iff_lt_mul (show 0 < K by omega)).mpr h2
  omega

theorem sum_map_le_mul (l : List (List Nat)) (K : Nat) (h : ∀ b ∈ l, b.sum ≤ K) :
    (l.map List.sum).sum ≤ l.length * K := by
  induction l with
  | nil => simp
  | cons b l ih =>
    simp only [List.map_cons, List.sum_cons, List.length_cons]
    have h1 := h b (List.mem_cons_self b l)
    have h2 := ih (fun x hx => h x (List.mem_cons_of_mem _ hx))
    have h3 : (l.length + 1) * K = l.length * K + K := by ring
    omega

theorem sum_le_len_mul (l : List Nat) (K : Nat) (h : ∀ x ∈ l, x ≤ K) :
    l.sum ≤ l.length * K := by
  induction l with
  | nil => simp
  | cons a l ih =>
    simp only [List.sum_cons, List.length_cons]
    have h1 := h a (List.mem_cons_self a l)
    have h2 := ih (fun x hx => h x (List.mem_cons_of_mem _ hx))
    have h3 : (l.length + 1) * K = l.length * K + K := by ring
    omega

/-! ### Comparing the lookup count with the heap count -/

/-- The tightness predicate of the joint lookup/heap induction: at least
one lookup bin is used, and every used lookup bin is loaded strictly above
the heap's maximal load `A` (no histogram entry in `[K - A, K)`). -/
def PhiP (K n A : Nat) (hist : List Nat) : Prop :=
  hist.getD K 0 < n ∧ ∀ c, K - A ≤ c → c < K → hist.getD c 0 = 0

instance (K n A : Nat) (hist : List Nat) : Decidable (PhiP K n A hist) := by
  have d : Decidable (hist.getD K 0 < n ∧
      ∀ c ∈ List.range K, K - A ≤ c → hist.getD c 0 = 0) := inferInstance
  refine @decidable_of_iff _ _ ?_ d
  constructor
  · rintro ⟨h1, h2⟩
    exact ⟨h1, fun c hca hcK => h2 c (List.mem_range.mpr hcK) hca⟩
  · rintro ⟨h1, h2⟩
    exact ⟨h1, fun c hc hca => h2 c hca (List.mem_range.mp hc)⟩

/-- Joint invariant of the lookup and heap runs: the heap's bin count
dominates the number of used lookup bins, with one extra bin of slack
whenever the tightness predicate holds. -/
def Phi (K n : Nat) (st : LKState) (l : List Nat) : Prop :=
  st.hist.getD K 0 ≤ n ∧
    n + (if PhiP K n (getE l 1) st.hist then 1 else 0) ≤
      l.length + st.hist.getD K 0

theorem phi_init (K n : Nat) : Phi K n (lk_init n K) [] := by
  have hK : (lk_init n K).hist.getD K 0 = n := by
    show ((List.replicate (K + 1) 0).set K n).getD K 0 = n
    rw [getD_set_self _ _ _ (by rw [List.length_replicate]; omega)]
  have hnP : ¬ PhiP K n (getE ([] : List Nat) 1) (lk_init n K).hist := by
    intro hP
    have h1 := hP.1
    omega
  refine ⟨by omega, ?_⟩
  rw [if_neg hnP]
  simp only [List.length_nil]
  omega

theorem phi_step (K n i : Nat) (st : LKState) (l : List Nat) (s : Nat)
    (hphi : Phi K n st l)
    (hlen : st.hist.length = K + 1) (hKge : n - i ≤ st.hist.getD K 0)
    (hin : i < n) (hs1 : 1 ≤ s) (hsK : s ≤ K)
    (hh : HeapProp l) (hlli : l.length ≤ i) :
    Phi K n (lk_step st s) (bfh_step n K l s) := by
  obtain ⟨hub, hmain⟩ := hphi
  have hKpos : 1 ≤ st.hist.getD K 0 := le_trans (by omega : 1 ≤ n - i) hKge
  have hfindex : ∃ cur, lk_find st.hist s = some cur ∧ s ≤ cur ∧ cur ≤ K := by
    cases hf : lk_find st.hist s with
    | none =>
      have := lk_find_none _ _ hf K (by omega) (by rw [hlen]; omega)
      omega
    | some cur =>
      obtain ⟨h1, h2, h3, h4⟩ := lk_find_spec _ _ _ hf
      refine ⟨cur, rfl, h1, ?_⟩
      by_contra hcur
      have := h4 K (by omega) (by omega)
      omega
  obtain ⟨cur, hf, hscur, hcurK⟩ := hfindex
  obtain ⟨_, hclt, hcnz, hzero⟩ := lk_find_spec _ _ _ hf
  have hcnz' : 1 ≤ st.hist.getD cur 0 := Nat.one_le_iff_ne_zero.mpr hcnz
  have hstep2 : lk_step st s =
      { hist := (st.hist.set cur (st.hist.getD cur 0 - 1)).set (cur - s)
          ((st.hist.set cur (st.hist.getD cur 0 - 1)).getD (cur - s) 0 + 1)
        ok := st.ok } := by
    simp only [lk_step, hf]
  have hn2 : l ≠ [] → 2 ≤ n := by
    intro hne
    have : 1 ≤ l.length := List.length_pos.mpr hne
    omega
  have hstep3 := bfh_step_eq n K l s hh hs1 hn2
  have hcsK : cur - s < K := by omega
  have hgcs : (lk_step st s).hist.getD (cur - s) 0 =
      (st.hist.set cur (st.hist.getD cur 0 - 1)).getD (cur - s) 0 + 1 := by
    rw [hstep2]
    exact getD_set_self _ _ _ (by simp only [List.length_set, hlen]; omega)
  have hgcs2 : 1 ≤ (lk_step st s).hist.getD (cur - s) 0 := by
    rw [hgcs]
    omega
  have hgother : ∀ x, x ≠ cur - s → x ≠ cur →
      (lk_step st s).hist.getD x 0 = st.hist.getD x 0 := by
    intro x hx1 hx2
    rw [hstep2]
    show ((st.hist.set cur _).set (cur - s) _).getD x 0 = _
    rw [getD_set_ne _ _ _ _ (fun h => hx1 h.symm),
      getD_set_ne _ _ _ _ (fun h => hx2 h.symm)]
  rw [hstep3]
  by_cases hcK : cur = K
  · have hgKb : (lk_step st s).hist.getD K 0 = st.hist.getD K 0 - 1 := by
      rw [hstep2]
      show ((st.hist.set cur _).set (cur - s) _).getD K 0 = _
      rw [getD_set_ne _ _ _ _ (show cur - s ≠ K by omega)]
      rw [hcK]
      exact getD_set_self _ _ _ (by rw [hlen]; omega)
    by_cases hc : l.length ≠ 0 ∧ getE l 1 + s ≤ K
    · -- lookup opens a fresh bin, the heap places on its root
      rw [if_pos hc]
      have hc1 := hc.1
      have hll : 1 ≤ l.length := by omega
      have hroot : getE (setE l 1 (getE l 1 + s)) 1 = getE l 1 + s :=
        getE_setE_self l 1 _ (le_refl 1) hll
      have hlenE : (setE l 1 (getE l 1 + s)).length = l.length := length_setE l 1 _
      have hnP : ¬ PhiP K n (getE (setE l 1 (getE l 1 + s)) 1)
          (lk_step st s).hist := by
        intro hP
        have h2 := hP.2 (cur - s) (by rw [hroot]; omega) (by omega)
        omega
      refine ⟨by omega, ?_⟩
      rw [if_neg hnP, hlenE, hgKb]
      by_cases hused : st.hist.getD K 0 < n
      · have hP : PhiP K n (getE l 1) st.hist := by
          refine ⟨hused, ?_⟩
          intro c hca hcKlt
          exact hzero c (by omega) (by omega)
        rw [if_pos hP] at hmain
        omega
      · omega
    · -- both open a fresh bin
      rw [if_neg hc]
      have hplen : (hpush l s).length = l.length + 1 := by
        rw [(hpush_perm l s).length_eq]
        simp
      have hproot : getE (hpush l s) 1 = max (getE l 1) s := hpush_root l s hh
      have hnP : ¬ PhiP K n (getE (hpush l s) 1) (lk_step st s).hist := by
        intro hP
        have h2 := hP.2 (cur - s) (by rw [hproot]; omega) (by omega)
        omega
      refine ⟨by omega, ?_⟩
      rw [if_neg hnP, hplen, hgKb]
      omega
  · have hcurlt : cur < K := by omega
    have hgKb : (lk_step st s).hist.getD K 0 = st.hist.getD K 0 :=
      hgother K (by omega) (by omega)
    by_cases hc : l.length ≠ 0 ∧ getE l 1 + s ≤ K
    · -- both place
      rw [if_pos hc]
      have hc1 := hc.1
      have hll : 1 ≤ l.length := by omega
      have hroot : getE (setE l 1 (getE l 1 + s)) 1 = getE l 1 + s :=
        getE_setE_self l 1 _ (le_refl 1) hll
      have hlenE : (setE l 1 (getE l 1 + s)).length = l.length := length_setE l 1 _
      refine ⟨by omega, ?_⟩
      rw [hlenE, hgKb]
      by_cases hP2 : PhiP K n (getE (setE l 1 (getE l 1 + s)) 1) (lk_step st s).hist
      · have hP : PhiP K n (getE l 1) st.hist := by
          obtain ⟨hPa, hPb⟩ := hP2
          rw [hgKb] at hPa
          refine ⟨hPa, ?_⟩
          have hclow : cur < K - getE l 1 := by
            by_contra hge
            have h2 := hPb (cur - s) (by rw [hroot]; omega) (by omega)
            omega
          intro c hca hcKlt
          rw [← hgother c (by omega) (by omega)]
          exact hPb c (by rw [hroot]; omega) hcKlt
        rw [if_pos hP] at hmain
        rw [if_pos hP2]
        omega
      · rw [if_neg hP2]
        omega
    · -- lookup places, heap opens a fresh bin
      rw [if_neg hc]
      have hplen : (hpush l s).length = l.length + 1 := by
        rw [(hpush_perm l s).length_eq]
        simp
      refine ⟨by omega, ?_⟩
      rw [hplen, hgKb]
      by_cases hP2 : PhiP K n (getE (hpush l s) 1) (lk_step st s).hist
      · rw [if_pos hP2]
        omega
      · rw [if_neg hP2]
        omega

theorem phi_run (K minsz : Nat) (objects : List Nat) (hv : Valid K minsz objects) :
    ∀ i, i ≤ objects.length →
      Phi K objects.length
        ((objects.take i).foldl lk_step (lk_init objects.length K))
        (bfh_pre objects.length K objects i) := by
  intro i
  induction i with
  | zero =>
    intro _
    simpa [bfh_pre] using phi_init K objects.length
  | succ i ih =>
    intro hi1
    have hilt : i < objects.length := by omega
    have hmem : objects.getD i 0 ∈ objects := getD_mem hilt 0
    obtain ⟨hms, hsK⟩ := hv.2.2 _ hmem
    obtain ⟨_, hlen, _, hKge⟩ := linv_run K minsz objects hv i (by omega)
    have hhinv := bfh_inv K minsz objects hv i (by omega)
    rw [foldl_take_succ lk_step objects i hilt _ 0, bfh_pre_succ _ _ _ _ hilt]
    exact phi_step K objects.length i _ _ _ (ih (by omega)) hlen hKge hilt
      (by have := hv.1; omega) hsK hhinv.1 hhinv.2.2.2.1

theorem best_fit_lookup_nil (K : Nat) : best_fit_lookup K [] = 0 := by
  rw [best_fit_lookup, lk_run]
  show (((List.replicate (K + 1) 0).set K 0).take K).sum = 0
  rw [take_set_ge _ _ _ _ (le_refl K)]
  have h1 : (List.replicate (K + 1) (0 : Nat)).take K = List.replicate K 0 := by
    rw [List.take_replicate]
    congr 1
    omega
  rw [h1]
  simp

/-- **C1.** For every valid problem instance (`1 ≤ min_size`, every item
between `min_size` and `K`), the bin count returned by the lookup-table
heuristic `best_fit_lookup` is at most the count returned by the array
heuristic `best_fit` and at most the count returned by the heap heuristic
`best_fit_heap` on the same items and capacity.  (For a nonempty instance
the lookup count in fact equals the number of nonempty bins of the array
run; the heap comparison rests on the joint invariant `Phi`.) -/
theorem C1_lookup_le (K minsz : Nat) (objects : List Nat)
    (hv : Valid K minsz objects) :
    best_fit_lookup K objects ≤ best_fit K minsz objects ∧
      best_fit_lookup K objects ≤ best_fit_heap K objects := by
  by_cases hn : 1 ≤ objects.length
  · constructor
    · rw [best_fit_lookup_eq_usedB K minsz objects hv hn,
        best_fit_eq_bfx K minsz objects hv hn]
      have h1 : usedB (bfx_run K minsz objects) ≤
          (bfx_run K minsz objects).allBins.length := List.countP_le_length _
      have h2 : (bfx_run K minsz objects).allBins.length =
          (bfx_run K minsz objects).opens.length +
            (bfx_run K minsz objects).fulls.length := by
        simp [BFXState.allBins]
      omega
    · have hphi := phi_run K minsz objects hv objects.length (le_refl _)
      have heq : bfh_pre objects.length K objects objects.length =
          objects.foldl (bfh_step objects.length K) [] := by
        rw [bfh_pre, List.take_length]
      rw [List.take_length, heq] at hphi
      obtain ⟨_, hlen, hsum, _⟩ := linv_run K minsz objects hv objects.length
        (le_refl _)
      rw [List.take_length] at hlen hsum
      obtain ⟨hub, hmain⟩ := hphi
      have hst := sum_take_last (objects.foldl lk_step
        (lk_init objects.length K)).hist K hlen
      rw [best_fit_lookup, lk_run, best_fit_heap, bfh_run]
      omega
  · have hobj : objects = [] := by
      cases objects with
      | nil => rfl
      | cons a t => simp at hn
    subst hobj
    rw [best_fit_lookup_nil K]
    exact ⟨Nat.zero_le _, Nat.zero_le _⟩

theorem C1_witness :
    Valid 10 2 [6, 7, 3, 5] ∧
      (best_fit_lookup 10 [6, 7, 3, 5] ≤ best_fit 10 2 [6, 7, 3, 5] ∧
        best_fit_lookup 10 [6, 7, 3, 5] ≤ best_fit_heap 10 [6, 7, 3, 5]) :=
  ⟨by decide, C1_lookup_le 10 2 [6, 7, 3, 5] (by decide)⟩

/-- C2 counterexample — the claim asserts that every heuristic's count is
between `ceil(sum/K)` and `n` for every valid instance, but on the valid
empty instance (`n = 0`, `K = 1`, `min_size = 1`) `best_fit` returns
`num_open_bins + num_full_bins = 1 > 0 = n`, because `num_open_bins` is
initialized to `1`. -/
theorem C2_counterexample :
    Valid 1 1 [] ∧ best_fit 1 1 [] = 1 ∧
      ¬ best_fit 1 1 [] ≤ ([] : List Nat).length := by decide

/-- **C2 (amended).** For every nonempty valid instance, each of
`best_fit`, `best_fit_heap` and `best_fit_lookup` returns a bin count
that is at least `ceil(sum(items) / K)` — here `(sum + K - 1) / K` — and
at most `n`.  (On the empty instance the heap and lookup heuristics return
`0` but `best_fit` returns `1`, as the counterexample shows.) -/
theorem C2_bounds (K minsz : Nat) (objects : List Nat)
    (hv : Valid K minsz objects) (hn : 1 ≤ objects.length) :
    ((objects.sum + K - 1) / K ≤ best_fit K minsz objects ∧
      best_fit K minsz objects ≤ objects.length) ∧
    ((objects.sum + K - 1) / K ≤ best_fit_heap K objects ∧
      best_fit_heap K objects ≤ objects.length) ∧
    ((objects.sum + K - 1) / K ≤ best_fit_lookup K objects ∧
      best_fit_lookup K objects ≤ objects.length) := by
  have hK1 : 1 ≤ K := by
    have h1 := hv.1
    have h2 := hv.2.1
    omega
  obtain ⟨a1, a2, a3, a4, a5, a6, a7, a9, a8⟩ := bfx_run_ainv K minsz objects hv hn
  have hballK : ∀ b ∈ (bfx_run K minsz objects).allBins, b.sum ≤ K := by
    intro b hb
    have hb' : b ∈ (bfx_run K minsz objects).opens ++ (bfx_run K minsz objects).fulls :=
      hb
    rcases List.mem_append.mp hb' with h | h
    · exact a1 b h
    · exact (a2 b h).2
  have hsumle : objects.sum ≤ (bfx_run K minsz objects).allBins.length * K := by
    rw [← a5]
    exact sum_map_le_mul _ K hballK
  have hlenab : (bfx_run K minsz objects).allBins.length =
      (bfx_run K minsz objects).opens.length +
        (bfx_run K minsz objects).fulls.length := by
    simp [BFXState.allBins]
  have hbfeq := best_fit_eq_bfx K minsz objects hv hn
  have harr : (objects.sum + K - 1) / K ≤ best_fit K minsz objects ∧
      best_fit K minsz objects ≤ objects.length := by
    constructor
    · refine ceil_div_le _ _ _ hK1 ?_
      rw [hbfeq]
      calc objects.sum ≤ (bfx_run K minsz objects).allBins.length * K := hsumle
        _ = ((bfx_run K minsz objects).opens.length +
              (bfx_run K minsz objects).fulls.length) * K := by rw [hlenab]
    · rw [hbfeq]
      omega
  refine ⟨harr, ?_, ?_⟩
  · -- the heap heuristic
    have hheq : bfh_pre objects.length K objects objects.length =
        objects.foldl (bfh_step objects.length K) [] := by
      rw [bfh_pre, List.take_length]
    obtain ⟨hh1, hh2, hh3, hh4, hh5⟩ :=
      bfh_inv K minsz objects hv objects.length (le_refl _)
    rw [hheq] at hh2 hh3 hh4
    rw [List.take_length] at hh3
    constructor
    · refine ceil_div_le _ _ _ hK1 ?_
      rw [best_fit_heap, bfh_run, ← hh3]
      exact sum_le_len_mul _ K hh2
    · rw [best_fit_heap, bfh_run]
      exact hh4
  · -- the lookup heuristic
    have hlk : best_fit_lookup K objects = best_fit K minsz objects := by
      rw [best_fit_lookup_eq_usedB K minsz objects hv hn,
        usedB_eq_length K minsz objects hv hn, hbfeq, hlenab]
    rw [hlk]
    exact harr

theorem C2_witness :
    Valid 10 2 [6, 7, 3, 5] ∧ 1 ≤ [6, 7, 3, 5].length ∧
      ((([6, 7, 3, 5].sum + 10 - 1) / 10 ≤ best_fit 10 2 [6, 7, 3, 5] ∧
        best_fit 10 2 [6, 7, 3, 5] ≤ [6, 7, 3, 5].length) ∧
      (([6, 7, 3, 5].sum + 10 - 1) / 10 ≤ best_fit_heap 10 [6, 7, 3, 5] ∧
        best_fit_heap 10 [6, 7, 3, 5] ≤ [6, 7, 3, 5].length) ∧
      (([6, 7, 3, 5].sum + 10 - 1) / 10 ≤ best_fit_lookup 10 [6, 7, 3, 5] ∧
        best_fit_lookup 10 [6, 7, 3, 5] ≤ [6, 7, 3, 5].length)) :=
  ⟨by decide, by decide, C2_bounds 10 2 [6, 7, 3, 5] (by decide) (by decide)⟩

end BinPacking
